import Mathlib

/-!
Verification development for the social-network-analysis tool (`app.py`).

The program builds an undirected graph from an uploaded adjacency list and
computes analytics using networkx and python-louvain.  The definitions below
are shallow embeddings of the functions of `app.py` together with the
library routines it calls (`nx.degree_centrality`, `nx.closeness_centrality`,
`nx.clustering`, `nx.average_clustering`,
`nx.average_shortest_path_length` / `nx.is_connected`, and
`community_louvain.best_partition`), with machine floats modelled by `ℚ`
and Python dictionaries modelled by association lists that preserve the
insertion order that Python dictionaries guarantee.
-/

/- Rational arithmetic must evaluate inside `decide` proofs about concrete
graphs; Batteries marks these operations irreducible for performance only. -/
attribute [local semireducible] Rat.add Rat.mul Rat.inv Rat.sub

/-- An undirected graph as networkx's `Graph` stores it: `nodes` is the list
of nodes in insertion order (a Python dict preserves it, no duplicates),
`edges` the list of edges in insertion order, each unordered pair stored
once, in the orientation in which it was first added.  Self-loops `(v, v)`
are representable, exactly as in networkx. -/
structure Graph (α : Type) where
  nodes : List α
  edges : List (α × α)
deriving Repr, DecidableEq

/-- Two oriented pairs represent the same undirected edge. -/
def sameEdge {α : Type} [DecidableEq α] (e f : α × α) : Bool :=
  (decide (e.1 = f.1) && decide (e.2 = f.2)) || (decide (e.1 = f.2) && decide (e.2 = f.1))

/-- networkx adds a node on first sight and otherwise leaves the dict alone. -/
def addNode {α : Type} [DecidableEq α] (g : Graph α) (v : α) : Graph α :=
  if v ∈ g.nodes then g else { g with nodes := g.nodes ++ [v] }

/-- `graph.add_edge(u, v)`: ensure both endpoints are nodes (u first, then v),
then record the undirected edge unless it is already present. -/
def addEdge {α : Type} [DecidableEq α] (g : Graph α) (u v : α) : Graph α :=
  let g' := addNode (addNode g u) v
  if g'.edges.any (fun e => sameEdge e (u, v)) then g'
  else { g' with edges := g'.edges ++ [(u, v)] }

/-- `graph.neighbors(v)` in adjacency-insertion order; a self-loop contributes
`v` itself once, as in networkx. -/
def neighbors {α : Type} [DecidableEq α] (g : Graph α) (v : α) : List α :=
  g.edges.filterMap (fun e =>
    if e.1 = v then some e.2 else if e.2 = v then some e.1 else none)

/-- `graph.has_edge(u, v)`. -/
def hasEdge {α : Type} [DecidableEq α] (g : Graph α) (u v : α) : Bool :=
  g.edges.any (fun e => sameEdge e (u, v))

/-- networkx degree: each incident edge counts once, a self-loop twice. -/
def degree {α : Type} [DecidableEq α] (g : Graph α) (v : α) : Nat :=
  (g.edges.map (fun e =>
    (if e.1 = v then 1 else 0) + (if e.2 = v then 1 else 0))).sum

/-- Well-formedness that `addEdge`-built graphs enjoy: nodes are distinct,
edge endpoints are nodes, and no undirected edge is stored twice. -/
def WF {α : Type} [DecidableEq α] (g : Graph α) : Prop :=
  g.nodes.Nodup ∧ (∀ e ∈ g.edges, e.1 ∈ g.nodes ∧ e.2 ∈ g.nodes) ∧
    g.edges.Pairwise (fun e f => sameEdge e f = false)

instance decidableWF {α : Type} [DecidableEq α] (g : Graph α) : Decidable (WF g) := by
  unfold WF
  infer_instance

/-- A graph has no self-loops when no stored edge has equal endpoints. -/
def NoSelfLoops {α : Type} (g : Graph α) : Prop := ∀ e ∈ g.edges, e.1 ≠ e.2

/-- Every node is an endpoint of some edge (no isolated nodes). -/
def NodesCovered {α : Type} (g : Graph α) : Prop :=
  ∀ v ∈ g.nodes, ∃ e ∈ g.edges, e.1 = v ∨ e.2 = v

/-- Split a character list at every character satisfying `p` (keeping empty
chunks, like Python's `str.split(sep)` with an explicit separator). -/
def splitChars (p : Char → Bool) : List Char → List Char → List (List Char)
  | [], acc => [acc.reverse]
  | c :: cs, acc =>
    if p c then acc.reverse :: splitChars p cs [] else splitChars p cs (c :: acc)

/-- The whitespace characters Python's `str.split()` (and `str.strip()`)
separate on: CPython's Unicode whitespace table, i.e. exactly the characters
for which `str.isspace()` holds — ASCII 0x09–0x0d, the separator controls
0x1c–0x1f, the space 0x20, NEL 0x85, NBSP 0xa0, Ogham space 0x1680, the
0x2000–0x200a spaces, the line/paragraph separators 0x2028/0x2029, narrow
NBSP 0x202f, medium mathematical space 0x205f and ideographic space 0x3000. -/
def pySpace (c : Char) : Bool :=
  (0x09 ≤ c.toNat && c.toNat ≤ 0x0d) || (0x1c ≤ c.toNat && c.toNat ≤ 0x20) ||
    c.toNat = 0x85 || c.toNat = 0xa0 || c.toNat = 0x1680 ||
    (0x2000 ≤ c.toNat && c.toNat ≤ 0x200a) || c.toNat = 0x2028 ||
    c.toNat = 0x2029 || c.toNat = 0x202f || c.toNat = 0x205f || c.toNat = 0x3000

/-- Python's `line.split()`: split on runs of whitespace, dropping empties. -/
def splitWS (line : String) : List String :=
  ((splitChars pySpace line.data []).map String.mk).filter (fun t => t ≠ "")

/-- Python's `content.split('\n')`. -/
def splitLines (content : String) : List String :=
  (splitChars (fun c => c = '\n') content.data []).map String.mk

/-- One iteration of the parser loop of `parse_adjacency_list`: a blank line
is skipped, otherwise the first token is the user and an edge is added to
each remaining token. -/
def parseLine (g : Graph String) (line : String) : Graph String :=
  match splitWS line with
  | [] => g
  | user :: friends => friends.foldl (fun g' friend => addEdge g' user friend) g

/-- `parse_adjacency_list(content)`: split the upload into lines and fold the
per-line loop over an initially empty `nx.Graph()`. -/
def parse_adjacency_list (content : String) : Graph String :=
  (splitLines content).foldl parseLine { nodes := [], edges := [] }

/-- Insert into a list sorted by the strict order `lt`. -/
def insertSorted {β : Type} (lt : β → β → Bool) (x : β) : List β → List β
  | [] => [x]
  | y :: ys => if lt x y then x :: y :: ys else y :: insertSorted lt x ys

/-- Insertion sort by the strict order `lt`.  Python's `sorted` is a stable
sort; every use below sorts records that carry their original position and
uses a total strict order whose tie-breaking component is that position, so
the result is exactly the stable sort Python produces. -/
def sortL {β : Type} (lt : β → β → Bool) : List β → List β
  | [] => []
  | x :: xs => insertSorted lt x (sortL lt xs)

/-- `nx.degree_centrality`: `deg(v)/(n-1)`, but every node of a graph with at
most one node gets score 1. -/
def degree_centrality {α : Type} [DecidableEq α] (g : Graph α) : List (α × ℚ) :=
  if g.nodes.length ≤ 1 then g.nodes.map (fun v => (v, 1))
  else g.nodes.map (fun v => (v, (degree g v : ℚ) / ((g.nodes.length : ℚ) - 1)))

/-- The `k` argument `calculate_metrics` passes to `nx.betweenness_centrality`
at line 67 of `app.py`: `k=min(100, len(graph.nodes()))`.  `nx.betweenness`
runs its Brandes pass from `k` sampled source nodes; the sample covers every
node exactly when `k` equals the node count. -/
def betweennessSampleK {α : Type} (g : Graph α) : Nat := min 100 g.nodes.length

/-- Concatenated neighbor lists of a list of nodes. -/
def nbrsList {α : Type} [DecidableEq α] (g : Graph α) (vs : List α) : List α :=
  vs.foldl (fun acc v => acc ++ neighbors g v) []

/-- Nodes within `k` steps of `s`: the `k`-fold neighbor expansion.  This is
the mathematical yardstick for breadth-first search; `u ∈ ball g s k` says
there is a walk of length at most `k` from `s` to `u`. -/
def ball {α : Type} [DecidableEq α] (g : Graph α) (s : α) : Nat → List α
  | 0 => [s]
  | k + 1 => ball g s k ++ nbrsList g (ball g s k)

/-- `u` is reachable from `s` (any walk fits within `|V|` steps). -/
def reachableB {α : Type} [DecidableEq α] (g : Graph α) (s u : α) : Bool :=
  u ∈ ball g s g.nodes.length

/-- Breadth-first-search distance as the least `k` with `u` in the `k`-ball. -/
def distB {α : Type} [DecidableEq α] (g : Graph α) (s u : α) : Option Nat :=
  (List.range (g.nodes.length + 1)).find? (fun k => u ∈ ball g s k)

/-- Does the association list hold the key? -/
def containsKey {α β : Type} [DecidableEq α] (l : List (α × β)) (k : α) : Bool :=
  l.any (fun p => p.1 = k)

/-- One level of networkx's `_single_shortest_path_length`: every frontier
element not yet seen is recorded at the current distance (`found`), and the
next frontier is the union of the neighbors of `found`. -/
def bfsStep {α : Type} [DecidableEq α] (seen : List (α × Nat)) (level : Nat)
    (frontier : List α) : List (α × Nat) × List α :=
  frontier.foldl
    (fun acc v => if containsKey acc.1 v then acc else (acc.1 ++ [(v, level)], acc.2 ++ [v]))
    (seen, [])

/-- The level loop of `_single_shortest_path_length` (fuel replaces `while`). -/
def bfsLoop {α : Type} [DecidableEq α] (g : Graph α) : Nat → List (α × Nat) → List α → Nat → List (α × Nat)
  | 0, seen, _, _ => seen
  | fuel + 1, seen, frontier, level =>
    if frontier.isEmpty then seen
    else
      let sf := bfsStep seen level frontier
      bfsLoop g fuel sf.1 (nbrsList g sf.2) (level + 1)

/-- `nx.single_source_shortest_path_length(G, s)` as an association list in
discovery order; `|V| + 2` rounds of fuel always suffice. -/
def spLengths {α : Type} [DecidableEq α] (g : Graph α) (s : α) : List (α × Nat) :=
  bfsLoop g (g.nodes.length + 2) [] [s] 0

/-- `nx.closeness_centrality(G)` (default `wf_improved=True`): with `sp` the
BFS distance dict of `v`, `totsp` its sum and `r = len(sp)`, the score is
`((r-1)/totsp) * ((r-1)/(n-1))` when `totsp > 0` and `n > 1`, else 0. -/
def closeness_centrality {α : Type} [DecidableEq α] (g : Graph α) : List (α × ℚ) :=
  g.nodes.map (fun v =>
    let sp := spLengths g v
    let totsp : ℚ := (((sp.map (fun p => p.2)).sum : Nat) : ℚ)
    let n := g.nodes.length
    if 0 < totsp ∧ 1 < n then
      (v, (((sp.length : ℚ) - 1) / totsp) * (((sp.length : ℚ) - 1) / ((n : ℚ) - 1)))
    else (v, 0))

/-- `nx.clustering(G)`: the self-loop-blind neighbor set `nb` of `v` of size
`k` gives coefficient `2·(edges among nb)/(k·(k-1))`, and 0 when `k < 2`. -/
def clustering {α : Type} [DecidableEq α] (g : Graph α) : List (α × ℚ) :=
  g.nodes.map (fun v =>
    let nb := (neighbors g v).filter (fun x => x ≠ v)
    let k := nb.length
    if k < 2 then (v, 0)
    else
      let links := g.edges.countP (fun e => decide (e.1 ∈ nb) && decide (e.2 ∈ nb) && decide (e.1 ≠ e.2))
      (v, 2 * (links : ℚ) / ((k : ℚ) * ((k : ℚ) - 1))))

/-- `nx.average_clustering(G)`: arithmetic mean of the coefficients. -/
def average_clustering {α : Type} [DecidableEq α] (g : Graph α) : ℚ :=
  ((clustering g).map (fun p => p.2)).sum / (g.nodes.length : ℚ)

/-- `nx.density(G)`: `2m/(n(n-1))`, and 0 when there are no nodes or edges. -/
def nxDensity {α : Type} (g : Graph α) : ℚ :=
  if g.nodes.length = 0 ∨ g.edges.length = 0 then 0
  else 2 * (g.edges.length : ℚ) / ((g.nodes.length : ℚ) * ((g.nodes.length : ℚ) - 1))

/-- `nx.is_connected(G)`: a plain BFS from an arbitrary node (networkx takes
the first) visits as many nodes as the graph has.  networkx raises on the
null graph; `calculate_metrics` never reaches this call with 0 nodes. -/
def isConnected {α : Type} [DecidableEq α] (g : Graph α) : Bool :=
  match g.nodes with
  | [] => true
  | s :: _ => (spLengths g s).length = g.nodes.length

/-- `nx.average_shortest_path_length(G)`: `none` models the raised exception
(null graph, or a disconnected graph with at least 2 nodes); a 1-node graph
returns 0; otherwise the mean of all |V|·(|V|-1) ordered BFS distances. -/
def average_shortest_path_length {α : Type} [DecidableEq α] (g : Graph α) : Option ℚ :=
  let n := g.nodes.length
  if n = 0 then none
  else if n = 1 then some 0
  else if isConnected g then
    some ((((g.nodes.map (fun u => ((spLengths g u).map (fun p => p.2)).sum)).sum : Nat) : ℚ)
          / ((n : ℚ) * ((n : ℚ) - 1)))
  else none

/-- What `metrics['avg_path_length']` holds: the computed number, or the
string "Graph is not connected" that the bare `except` branch stores. -/
inductive PathLengthResult
  | val : ℚ → PathLengthResult
  | notConnectedMsg : PathLengthResult
deriving Repr, DecidableEq

/-- Lines 78–81 of `app.py`: `try`/`except` around the networkx call. -/
def avgPathLengthEntry {α : Type} [DecidableEq α] (g : Graph α) : PathLengthResult :=
  match average_shortest_path_length g with
  | some q => PathLengthResult.val q
  | none => PathLengthResult.notConnectedMsg

/-- One iteration of the candidate loop of `recommend_friends`: `none` when
`c` is the user or a current neighbor, or when the union of the two neighbor
sets is empty; otherwise the candidate paired with its Jaccard similarity
`|common| / |union|` (the concatenation `N(q) ++ (N(c) minus N(q))` realizes
the union of the two sets, its length their union's size). -/
def recEntry {α : Type} [DecidableEq α] (g : Graph α) (user c : α) : Option (α × ℚ) :=
  if c = user ∨ hasEdge g user c then none
  else
    if 0 < (neighbors g user ++ (neighbors g c).filter (fun x => x ∉ neighbors g user)).length then
      some (c, (((neighbors g user).filter (fun x => x ∈ neighbors g c)).length : ℚ) /
        ((neighbors g user ++ (neighbors g c).filter (fun x => x ∉ neighbors g user)).length : ℚ))
    else none

/-- The per-candidate loop of `recommend_friends`: every node other than the
user and the user's current neighbors is scored with Jaccard similarity of
neighbor sets, skipping candidates with an empty union.  Order is the node
iteration order of the graph. -/
def jaccardRecs {α : Type} [DecidableEq α] (g : Graph α) (user : α) : List (α × ℚ) :=
  g.nodes.filterMap (recEntry g user)

/-- Sort key of `sorted(recommendations.items(), key=..., reverse=True)`
made total by the original position: higher score first, ties by position. -/
def recLt {α : Type} (a b : Nat × (α × ℚ)) : Bool :=
  b.2.2 < a.2.2 || (a.2.2 = b.2.2 && a.1 < b.1)

/-- `recommend_friends(graph, user)` (lines 88–104 of `app.py`). -/
def recommend_friends {α : Type} [DecidableEq α] (g : Graph α) (user : α) : List (α × ℚ) :=
  ((sortL recLt (jaccardRecs g user).enum).map (fun p => p.2)).take 5

/-- Sort key of `sorted(potential_fakes, key=lambda x: x[1])` made total by
the original position: lower coefficient first, ties by position. -/
def fakeLt {α : Type} (a b : Nat × (α × ℚ)) : Bool :=
  a.2.2 < b.2.2 || (a.2.2 = b.2.2 && a.1 < b.1)

/-- `detect_potential_fake_accounts(graph, threshold=0.1)` (lines 106–115):
keep the nodes whose clustering coefficient is below `threshold` times the
average, sort by ascending coefficient, return the first 10. -/
def detect_potential_fake_accounts {α : Type} [DecidableEq α] (g : Graph α)
    (threshold : ℚ) : List (α × ℚ) :=
  let flagged := (clustering g).filter (fun p => p.2 < threshold * average_clustering g)
  ((sortL fakeLt flagged.enum).map (fun p => p.2)).take 10

/-- Weighted undirected graph, as python-louvain sees both the input graph
(every edge weight 1) and the aggregated community graphs. -/
structure WGraph (α : Type) where
  nodes : List α
  edges : List ((α × α) × ℚ)
deriving Repr, DecidableEq

/-- The input graph with the default weight 1 on every edge. -/
def toWeighted {α : Type} (g : Graph α) : WGraph α :=
  { nodes := g.nodes, edges := g.edges.map (fun e => (e, 1)) }

/-- Weighted adjacency of `v` in insertion order. -/
def wNeighbors {α : Type} [DecidableEq α] (g : WGraph α) (v : α) : List (α × ℚ) :=
  g.edges.filterMap (fun ew =>
    if ew.1.1 = v then some (ew.1.2, ew.2)
    else if ew.1.2 = v then some (ew.1.1, ew.2) else none)

/-- `graph.degree(v, weight='weight')`: incident weights, a self-loop twice. -/
def wDegree {α : Type} [DecidableEq α] (g : WGraph α) (v : α) : ℚ :=
  (g.edges.map (fun ew =>
    (if ew.1.1 = v then ew.2 else 0) + (if ew.1.2 = v then ew.2 else 0))).sum

/-- `graph.size(weight='weight')`: total edge weight. -/
def wSize {α : Type} (g : WGraph α) : ℚ := (g.edges.map (fun ew => ew.2)).sum

/-- Weight of the self-loop at `v`, 0 when there is none. -/
def loopWeight {α : Type} [DecidableEq α] (g : WGraph α) (v : α) : ℚ :=
  match g.edges.find? (fun ew => decide (ew.1.1 = v) && decide (ew.1.2 = v)) with
  | some ew => ew.2
  | none => 0

/-- Dictionary read with default (`dict.get(k, d)`). -/
def getA {κ β : Type} [DecidableEq κ] (l : List (κ × β)) (k : κ) (d : β) : β :=
  match l.find? (fun p => decide (p.1 = k)) with
  | some p => p.2
  | none => d

/-- Dictionary write (`d[k] = v`): replace in place, else append. -/
def setA {κ β : Type} [DecidableEq κ] (l : List (κ × β)) (k : κ) (v : β) : List (κ × β) :=
  if containsKey l k then l.map (fun p => if p.1 = k then (k, v) else p)
  else l ++ [(k, v)]

/-- `d[k] = d.get(k, 0) + w` in one step, used to accumulate `neigh_communities`. -/
def upsertAdd {κ : Type} [DecidableEq κ] (l : List (κ × ℚ)) (k : κ) (w : ℚ) : List (κ × ℚ) :=
  if containsKey l k then l.map (fun p => if p.1 = k then (p.1, p.2 + w) else p)
  else l ++ [(k, w)]

/-- First-occurrence deduplication (how a Python dict or set collapses keys). -/
def dedupFirstAux {β : Type} [DecidableEq β] (seen : List β) : List β → List β
  | [] => []
  | x :: xs => if x ∈ seen then dedupFirstAux seen xs else x :: dedupFirstAux (seen ++ [x]) xs

/-- First-occurrence deduplication of a list. -/
def dedupFirst {β : Type} [DecidableEq β] (l : List β) : List β := dedupFirstAux [] l

/-- The mutable bookkeeping object `Status` of python-louvain. -/
structure LStatus (α : Type) where
  node2com : List (α × Int)
  total_weight : ℚ
  degrees : List (Int × ℚ)
  gdegrees : List (α × ℚ)
  internals : List (Int × ℚ)
  loops : List (α × ℚ)
deriving Repr, DecidableEq


/-- `Status.init(graph, weight)` with no initial part: node `i` (in node
order) starts in singleton community `i`; degrees and self-loop weights are
tabulated per node and per community. -/
def statusInit {α : Type} [DecidableEq α] (g : WGraph α) : LStatus α :=
  { node2com := g.nodes.enum.map (fun p => (p.2, (p.1 : Int)))
    total_weight := wSize g
    degrees := g.nodes.enum.map (fun p => ((p.1 : Int), wDegree g p.2))
    gdegrees := g.nodes.map (fun v => (v, wDegree g v))
    internals := g.nodes.enum.map (fun p => ((p.1 : Int), loopWeight g p.2))
    loops := g.nodes.map (fun v => (v, loopWeight g v)) }

/-- `__neighcom`: community → total weight of the edges joining `node` to it,
self-loops skipped, in first-encounter order. -/
def neighcom {α : Type} [DecidableEq α] (node : α) (g : WGraph α) (st : LStatus α) :
    List (Int × ℚ) :=
  (wNeighbors g node).foldl
    (fun w p => if p.1 = node then w else upsertAdd w (getA st.node2com p.1 (-1)) p.2) []

/-- `__remove(node, com, weight, status)`. -/
def removeNode {α : Type} [DecidableEq α] (node : α) (com : Int) (w : ℚ)
    (st : LStatus α) : LStatus α :=
  { st with
    degrees := setA st.degrees com (getA st.degrees com 0 - getA st.gdegrees node 0)
    internals := setA st.internals com (getA st.internals com 0 - (w + getA st.loops node 0))
    node2com := setA st.node2com node (-1) }

/-- `__insert(node, com, weight, status)`. -/
def insertCom {α : Type} [DecidableEq α] (node : α) (com : Int) (w : ℚ)
    (st : LStatus α) : LStatus α :=
  { st with
    node2com := setA st.node2com node com
    degrees := setA st.degrees com (getA st.degrees com 0 + getA st.gdegrees node 0)
    internals := setA st.internals com (getA st.internals com 0 + w + getA st.loops node 0) }

/-- python-louvain's `resolution` parameter at its default value. -/
def resolutionQ : ℚ := 1

/-- `__MIN`, the modularity-gain cutoff `0.0000001`. -/
def minIncrement : ℚ := 1 / 10000000

/-- `__modularity(status, resolution)`: sum over the distinct communities. -/
def modularityQ {α : Type} [DecidableEq α] (st : LStatus α) : ℚ :=
  let links := st.total_weight
  ((dedupFirst (st.node2com.map (fun p => p.2))).map (fun c =>
    if 0 < links then
      getA st.internals c 0 * resolutionQ / links - (getA st.degrees c 0 / (2 * links)) ^ 2
    else 0)).sum

/-- One outcome of `random_state.shuffle(list(items))`, drawn from an
explicit stream of index permutations (an invalid entry, and an exhausted
stream, leave the list unshuffled — still one of the permutations the global
RNG can produce). -/
def applyPerm {β : Type} (p : List Nat) (l : List β) : List β :=
  if p.length = l.length ∧ ∀ i ∈ List.range l.length, i ∈ p then
    p.filterMap (fun i => l[i]?)
  else l

/-- `__randomize(items, random_state)`: shuffle with the next drawn
permutation, consuming it from the stream. -/
def popShuffle {β : Type} (sup : List (List Nat)) (l : List β) :
    List β × List (List Nat) :=
  match sup with
  | [] => (l, [])
  | p :: rest => (applyPerm p l, rest)

/-- The body of `__one_level`'s `for node in __randomize(graph.nodes(), ...)`
loop: price the removal of `node` from its community, remove it, scan its
neighbor communities (shuffled) for the best strictly positive modularity
gain, and insert it there (back into its own community when no gain wins). -/
def louvainMoveNode {α : Type} [DecidableEq α] (g : WGraph α) (node : α)
    (acc : (LStatus α × Bool) × List (List Nat)) : (LStatus α × Bool) × List (List Nat) :=
  let st := acc.1.1
  let com_node := getA st.node2com node (-1)
  let degc_totw := getA st.gdegrees node 0 / (st.total_weight * 2)
  let neigh := neighcom node g st
  let remove_cost := -(getA neigh com_node 0) +
      resolutionQ * (getA st.degrees com_node 0 - getA st.gdegrees node 0) * degc_totw
  let st1 := removeNode node com_node (getA neigh com_node 0) st
  let ps := popShuffle acc.2 neigh
  let best := ps.1.foldl
    (fun b p =>
      let incr := remove_cost + p.2 - resolutionQ * getA st1.degrees p.1 0 * degc_totw
      if b.2 < incr then (p.1, incr) else b)
    (com_node, 0)
  let st2 := insertCom node best.1 (getA neigh best.1 0) st1
  ((st2, acc.1.2 || decide (best.1 ≠ com_node)), ps.2)

/-- One full scan of the (shuffled) node list inside `__one_level`. -/
def louvainPass {α : Type} [DecidableEq α] (g : WGraph α) (st : LStatus α)
    (sup : List (List Nat)) : (LStatus α × Bool) × List (List Nat) :=
  let ps := popShuffle sup g.nodes
  ps.1.foldl (fun acc node => louvainMoveNode g node acc) ((st, false), ps.2)

/-- `__one_level`'s `while modified` loop; `fuel` bounds the pass count
(python-louvain's `__PASS_MAX = -1` puts no bound; every extra pass must
raise modularity by at least `__MIN`, so the loop terminates). -/
def oneLevelGo {α : Type} [DecidableEq α] (g : WGraph α) :
    Nat → LStatus α → List (List Nat) → ℚ → Bool → LStatus α × List (List Nat)
  | 0, st, sup, _, _ => (st, sup)
  | fuel + 1, st, sup, new_mod, modified =>
    if modified = false then (st, sup)
    else
      let pass := louvainPass g st sup
      let new_mod' := modularityQ pass.1.1
      if new_mod' - new_mod < minIncrement then (pass.1.1, pass.2)
      else oneLevelGo g fuel pass.1.1 pass.2 new_mod' pass.1.2

/-- `__one_level(graph, status, weight_key, resolution, random_state)`. -/
def oneLevel {α : Type} [DecidableEq α] (fuel : Nat) (g : WGraph α) (st : LStatus α)
    (sup : List (List Nat)) : LStatus α × List (List Nat) :=
  oneLevelGo g fuel st sup (modularityQ st) true

/-- `__renumber(dictionary)`: relabel community values densely from 0 in the
dictionary's key order. -/
def renumberGo {α : Type} [DecidableEq α] :
    List (α × Int) → List (Int × Int) → List (α × Int)
  | [], _ => []
  | p :: rest, new_values =>
    let nv := getA new_values p.2 ((new_values.length : Int))
    (p.1, nv) :: renumberGo rest (setA new_values p.2 nv)

/-- `__renumber`. -/
def renumber {α : Type} [DecidableEq α] (d : List (α × Int)) : List (α × Int) :=
  renumberGo d []

/-- Weight of the undirected edge `(u, v)` of a weighted graph, 0 if absent. -/
def getWEdge {α : Type} [DecidableEq α] (g : WGraph α) (u v : α) : ℚ :=
  match g.edges.find? (fun ew => sameEdge ew.1 (u, v)) with
  | some ew => ew.2
  | none => 0

/-- `ret.add_edge(u, v, weight=w)`: endpoints become nodes when new, the
stored weight is replaced in place, a new edge is appended. -/
def setWEdge {α : Type} [DecidableEq α] (g : WGraph α) (u v : α) (w : ℚ) : WGraph α :=
  let withU := if u ∈ g.nodes then g.nodes else g.nodes ++ [u]
  let ns := if v ∈ withU then withU else withU ++ [v]
  if g.edges.any (fun ew => sameEdge ew.1 (u, v)) then
    { nodes := ns, edges := g.edges.map (fun ew => if sameEdge ew.1 (u, v) then (ew.1, w) else ew) }
  else { nodes := ns, edges := g.edges ++ [((u, v), w)] }

/-- `induced_graph(partition, graph, weight)`: one super-node per community
label, edge weights accumulated over the member edges. -/
def inducedGraph {α : Type} [DecidableEq α] (part : List (α × Int)) (g : WGraph α) :
    WGraph Int :=
  let base : WGraph Int := { nodes := dedupFirst (part.map (fun p => p.2)), edges := [] }
  g.edges.foldl
    (fun ret ew =>
      let com1 := getA part ew.1.1 (-1)
      let com2 := getA part ew.1.2 (-1)
      setWEdge ret com1 com2 (getWEdge ret com1 com2 + ew.2))
    base

/-- The `while True` loop of `generate_dendrogram`: stop when a level gains
less than `__MIN` modularity, otherwise record the renumbered partition and
recurse on the induced graph. -/
def dendroLoop (fuelOuter fuelLevel : Nat) (cg : WGraph Int)
    (sup : List (List Nat)) (mod : ℚ) : List (List (Int × Int)) :=
  match fuelOuter with
  | 0 => []
  | f + 1 =>
    let st := statusInit cg
    let ol := oneLevel fuelLevel cg st sup
    let new_mod := modularityQ ol.1
    if new_mod - mod < minIncrement then []
    else
      let part := renumber ol.1.node2com
      part :: dendroLoop f fuelLevel (inducedGraph part cg) ol.2 new_mod

/-- `generate_dendrogram(graph)`: an edgeless graph puts every node in its
own community; otherwise run the first level unconditionally, then the
aggregation loop.  Returns the level-0 partition and the higher levels. -/
def generateDendrogram {α : Type} [DecidableEq α] (fuel : Nat) (g : WGraph α)
    (sup : List (List Nat)) : List (α × Int) × List (List (Int × Int)) :=
  if g.edges.length = 0 then
    (g.nodes.enum.map (fun p => (p.2, (p.1 : Int))), [])
  else
    let st := statusInit g
    let ol := oneLevel fuel g st sup
    let new_mod := modularityQ ol.1
    let part := renumber ol.1.node2com
    (part, dendroLoop fuel fuel (inducedGraph part g) ol.2 new_mod)

/-- `partition_at_level(dendrogram, len(dendrogram) - 1)`: compose the
per-level relabelings onto the level-0 partition. -/
def partitionAtLevelAll {α : Type} [DecidableEq α] (p0 : List (α × Int))
    (levels : List (List (Int × Int))) : List (α × Int) :=
  levels.foldl (fun part lvl => part.map (fun p => (p.1, getA lvl p.2 (-1)))) p0

/-- `community_louvain.best_partition(graph)`: the node → community-label
dictionary of the deepest dendrogram level.  The shuffle stream `sup` stands
for the unseeded global RNG python-louvain consults. -/
def best_partition {α : Type} [DecidableEq α] (fuel : Nat) (g : Graph α)
    (sup : List (List Nat)) : List (α × Int) :=
  let gd := generateDendrogram fuel (toWeighted g) sup
  partitionAtLevelAll gd.1 gd.2

/-- The `metrics` dictionary that `calculate_metrics` assembles.  For the
betweenness entry only the sampling parameter `k` is recorded; no claim
concerns the Brandes sums themselves. -/
structure Metrics (α : Type) where
  degreeCentrality : List (α × ℚ)
  betweennessK : Nat
  closenessCentrality : List (α × ℚ)
  communities : List (α × Int)
  clusteringCoefficients : List (α × ℚ)
  avgPathLength : PathLengthResult
  densityVal : ℚ
deriving Repr, DecidableEq

/-- `calculate_metrics(graph)` (lines 59–86): `none` is the early `return {}`
for the empty graph.  `fuel` and `sup` parametrize the Louvain call (pass
bound and RNG draws). -/
def calculate_metrics {α : Type} [DecidableEq α] (fuel : Nat) (g : Graph α)
    (sup : List (List Nat)) : Option (Metrics α) :=
  if g.nodes.length = 0 then none
  else some
    { degreeCentrality := degree_centrality g
      betweennessK := betweennessSampleK g
      closenessCentrality := closeness_centrality g
      communities := best_partition fuel g sup
      clusteringCoefficients := clustering g
      avgPathLength := avgPathLengthEntry g
      densityVal := nxDensity g }

/-- Claim-side closeness formula, as the specification words it: for node
`v`, `(r-1) / Σ d(v,u)` over the nodes `u` reachable from `v`, where `r`
counts the reachable nodes including `v` itself and `d` is breadth-first
shortest-path distance; a node with `r = 1` gets closeness 0. -/
def closenessSpecClaim {α : Type} [DecidableEq α] (g : Graph α) (v : α) : ℚ :=
  let reach := g.nodes.filter (fun u => reachableB g v u)
  let r := reach.length
  let dsum : ℚ := (((reach.map (fun u => (distB g v u).getD 0)).sum : Nat) : ℚ)
  if r ≤ 1 then 0 else ((r : ℚ) - 1) / dsum

/-- The closeness formula the code actually realizes (networkx's default
Wasserman–Faust scaling): the claim-side quotient multiplied by the reached
fraction `(r-1)/(n-1)`, and 0 when `r ≤ 1` or `n ≤ 1`. -/
def closenessSpecWF {α : Type} [DecidableEq α] (g : Graph α) (v : α) : ℚ :=
  let reach := g.nodes.filter (fun u => reachableB g v u)
  let r := reach.length
  let dsum : ℚ := (((reach.map (fun u => (distB g v u).getD 0)).sum : Nat) : ℚ)
  if 2 ≤ r ∧ 2 ≤ g.nodes.length then
    (((r : ℚ) - 1) / dsum) * (((r : ℚ) - 1) / ((g.nodes.length : ℚ) - 1))
  else 0

/-- Jaccard similarity of the neighbor sets of `q` and `c`, as the claim
states it (set intersection over set union). -/
def jaccardSets {α : Type} [DecidableEq α] (g : Graph α) (q c : α) : ℚ :=
  (((neighbors g q).toFinset ∩ (neighbors g c).toFinset).card : ℚ) /
    (((neighbors g q).toFinset ∪ (neighbors g c).toFinset).card : ℚ)

/-- The ordering the claim asserts for recommendation lists: strictly higher
score first, equal scores in ascending (lexicographic) candidate order. -/
def recClaimRel (a b : String × ℚ) : Prop :=
  b.2 < a.2 ∨ (a.2 = b.2 ∧ a.1 < b.1)

/-- The ordering the code produces for equal scores: the graph's node
iteration order, here expressed through positions in the node list. -/
def recCodeRel {α : Type} [DecidableEq α] (g : Graph α) (a b : α × ℚ) : Prop :=
  b.2 < a.2 ∨ (a.2 = b.2 ∧ g.nodes.indexOf a.1 < g.nodes.indexOf b.1)

/-- A parsed line whose friend tokens do not repeat the subject token. -/
def lineSelfFriendFree (line : String) : Bool :=
  match splitWS line with
  | [] => true
  | u :: fs => decide (u ∉ fs)

/-- The 101-node path graph: a concrete input on which `calculate_metrics`
samples betweenness sources instead of using every node. -/
def pathGraph101 : Graph Nat :=
  (List.range 100).foldl (fun g i => addEdge g i (i + 1)) { nodes := [], edges := [] }

/-- Concrete 5-cycle on which the Louvain scan order changes the partition. -/
def cycle5 : Graph Nat :=
  [(0,1),(1,2),(2,3),(3,4),(4,0)].foldl (fun g e => addEdge g e.1 e.2) { nodes := [], edges := [] }

/-- The exact breadth-first distance predicate: `u` sits in the `d`-ball
around `s` but in no smaller ball. -/
def exactD {α : Type} [DecidableEq α] (g : Graph α) (s : α) (d : Nat) (u : α) : Prop :=
  u ∈ ball g s d ∧ ∀ j < d, u ∉ ball g s j

/-! ## Basic lemmas about the graph model -/

theorem foldl_inv {β γ : Type} (P : γ → Prop) (f : γ → β → γ) :
    ∀ (l : List β) (init : γ), P init → (∀ acc b, b ∈ l → P acc → P (f acc b)) →
      P (l.foldl f init)
  | [], init, h0, _ => h0
  | b :: l, init, h0, hstep =>
    foldl_inv P f l (f init b) (hstep init b (by simp) h0)
      (fun acc x hx hacc => hstep acc x (by simp [hx]) hacc)

theorem mem_neighbors_iff {α : Type} [DecidableEq α] (g : Graph α) (v x : α) :
    x ∈ neighbors g v ↔ ∃ e ∈ g.edges, (e.1 = v ∧ e.2 = x) ∨ (e.1 = x ∧ e.2 = v) := by
  unfold neighbors
  rw [List.mem_filterMap]
  constructor
  · rintro ⟨e, he, hfe⟩
    by_cases h1 : e.1 = v
    · simp only [h1, if_true, eq_self_iff_true, Option.some.injEq, if_pos] at hfe
      exact ⟨e, he, Or.inl ⟨h1, hfe⟩⟩
    · by_cases h2 : e.2 = v
      · simp only [h1, h2, if_true, if_false, eq_self_iff_true, Option.some.injEq,
          if_pos, if_neg, not_false_iff] at hfe
        exact ⟨e, he, Or.inr ⟨hfe, h2⟩⟩
      · simp [h1, h2] at hfe
  · rintro ⟨e, he, h⟩
    refine ⟨e, he, ?_⟩
    rcases h with ⟨h1, h2⟩ | ⟨h1, h2⟩
    · simp [h1, h2]
    · by_cases hv : e.1 = v
      · have hxv : x = v := h1 ▸ hv
        simp [hv, h2, hxv]
      · simp only [if_neg hv, if_pos h2, Option.some.injEq]
        exact h1

theorem neighbors_symm {α : Type} [DecidableEq α] (g : Graph α) (v x : α) :
    x ∈ neighbors g v ↔ v ∈ neighbors g x := by
  rw [mem_neighbors_iff, mem_neighbors_iff]
  constructor <;> (rintro ⟨e, he, h⟩; exact ⟨e, he, by tauto⟩)

theorem selfloop_mem_neighbors {α : Type} [DecidableEq α] (g : Graph α) (v : α) :
    v ∈ neighbors g v ↔ ∃ e ∈ g.edges, e.1 = v ∧ e.2 = v := by
  rw [mem_neighbors_iff]
  constructor <;> (rintro ⟨e, he, h⟩; exact ⟨e, he, by tauto⟩)

theorem neighbors_subset_nodes {α : Type} [DecidableEq α] {g : Graph α}
    (h : ∀ e ∈ g.edges, e.1 ∈ g.nodes ∧ e.2 ∈ g.nodes) {v x : α}
    (hx : x ∈ neighbors g v) : x ∈ g.nodes := by
  rcases (mem_neighbors_iff g v x).1 hx with ⟨e, he, h1 | h1⟩
  · exact h1.2 ▸ (h e he).2
  · exact h1.1 ▸ (h e he).1

theorem mem_nodes_addNode {α : Type} [DecidableEq α] (g : Graph α) (v x : α) :
    x ∈ (addNode g v).nodes ↔ x ∈ g.nodes ∨ x = v := by
  unfold addNode
  by_cases h : v ∈ g.nodes
  · simp only [if_pos h]
    constructor
    · exact fun hx => Or.inl hx
    · rintro (hx | rfl) <;> [exact hx; exact h]
  · simp [if_neg h]

theorem edges_addNode {α : Type} [DecidableEq α] (g : Graph α) (v : α) :
    (addNode g v).edges = g.edges := by
  unfold addNode; split <;> rfl

theorem wf_addNode {α : Type} [DecidableEq α] {g : Graph α} (h : WF g) (v : α) :
    WF (addNode g v) := by
  obtain ⟨hn, he, hp⟩ := h
  unfold addNode
  by_cases hv : v ∈ g.nodes
  · rw [if_pos hv]
    exact ⟨hn, he, hp⟩
  · rw [if_neg hv]
    refine ⟨?_, ?_, hp⟩
    · simpa [List.nodup_append] using ⟨hn, hv⟩
    · intro e hee
      have := he e hee
      simp only [List.mem_append]
      exact ⟨Or.inl this.1, Or.inl this.2⟩

theorem wf_addEdge {α : Type} [DecidableEq α] {g : Graph α} (h : WF g) (u v : α) :
    WF (addEdge g u v) := by
  have h2 : WF (addNode (addNode g u) v) := wf_addNode (wf_addNode h u) v
  obtain ⟨hn, he, hp⟩ := h2
  unfold addEdge
  by_cases hdup : (addNode (addNode g u) v).edges.any (fun e => sameEdge e (u, v))
  · simpa [hdup] using ⟨hn, he, hp⟩
  · simp only [hdup, Bool.false_eq_true, if_false]
    refine ⟨hn, ?_, ?_⟩
    · intro e hee
      rcases List.mem_append.1 hee with hee | hee
      · exact he e hee
      · have : e = (u, v) := by simpa using hee
        subst this
        constructor
        · rw [mem_nodes_addNode, mem_nodes_addNode]
          exact Or.inl (Or.inr rfl)
        · rw [mem_nodes_addNode]
          exact Or.inr rfl
    · rw [List.pairwise_append]
      refine ⟨hp, by simp, ?_⟩
      intro e hee f hf
      have hf' : f = (u, v) := by simpa using hf
      subst hf'
      have : ¬ (sameEdge e (u, v) = true) := fun hc => hdup (List.any_eq_true.2 ⟨e, hee, hc⟩)
      simpa using this

theorem wf_empty {α : Type} [DecidableEq α] : WF (⟨[], []⟩ : Graph α) := by
  refine ⟨List.nodup_nil, ?_, List.Pairwise.nil⟩
  intro e he
  simp at he

theorem wf_parseLine {g : Graph String} (h : WF g) (line : String) : WF (parseLine g line) := by
  unfold parseLine
  cases hs : splitWS line with
  | nil => exact h
  | cons user friends =>
    exact foldl_inv WF _ friends g h (fun acc b _ hacc => wf_addEdge hacc user b)

theorem wf_parse (content : String) : WF (parse_adjacency_list content) := by
  unfold parse_adjacency_list
  exact foldl_inv WF _ _ _ wf_empty (fun acc b _ hacc => wf_parseLine hacc b)

theorem sameEdge_true_iff {α : Type} [DecidableEq α] (e f : α × α) :
    sameEdge e f = true ↔ (e.1 = f.1 ∧ e.2 = f.2) ∨ (e.1 = f.2 ∧ e.2 = f.1) := by
  simp [sameEdge]

theorem addEdge_eq {α : Type} [DecidableEq α] (g : Graph α) (u v : α) :
    addEdge g u v =
      if (addNode (addNode g u) v).edges.any (fun e => sameEdge e (u, v)) then
        addNode (addNode g u) v
      else { nodes := (addNode (addNode g u) v).nodes,
             edges := (addNode (addNode g u) v).edges ++ [(u, v)] } := rfl

theorem nodes_addEdge {α : Type} [DecidableEq α] (g : Graph α) (u v : α) :
    (addEdge g u v).nodes = (addNode (addNode g u) v).nodes := by
  rw [addEdge_eq]
  split <;> rfl

theorem edges_addEdge {α : Type} [DecidableEq α] (g : Graph α) (u v : α) :
    (addEdge g u v).edges =
      if g.edges.any (fun e => sameEdge e (u, v)) then g.edges
      else g.edges ++ [(u, v)] := by
  rw [addEdge_eq]
  simp only [edges_addNode]
  split <;> simp [edges_addNode]

theorem edges_monotone_addEdge {α : Type} [DecidableEq α] (g : Graph α) (u v : α) :
    ∀ e ∈ g.edges, e ∈ (addEdge g u v).edges := by
  intro e he
  rw [edges_addEdge]
  split
  · exact he
  · exact List.mem_append.2 (Or.inl he)

theorem covered_addEdge {α : Type} [DecidableEq α] {g : Graph α}
    (h : NodesCovered g) (u v : α) : NodesCovered (addEdge g u v) := by
  intro x hx
  have hx' : x ∈ g.nodes ∨ x = u ∨ x = v := by
    rw [nodes_addEdge, mem_nodes_addNode, mem_nodes_addNode] at hx
    tauto
  rcases hx' with hx' | hx'
  · obtain ⟨e, he, hcov⟩ := h x hx'
    exact ⟨e, edges_monotone_addEdge g u v e he, hcov⟩
  · rw [edges_addEdge]
    by_cases hdup : g.edges.any (fun e => sameEdge e (u, v))
    · rw [if_pos hdup]
      obtain ⟨e, he, hsame⟩ := List.any_eq_true.1 hdup
      rcases (sameEdge_true_iff e (u, v)).1 hsame with ⟨h1, h2⟩ | ⟨h1, h2⟩ <;>
        (refine ⟨e, he, ?_⟩; rcases hx' with rfl | rfl <;> tauto)
    · rw [if_neg hdup]
      refine ⟨(u, v), List.mem_append.2 (Or.inr (by simp)), ?_⟩
      rcases hx' with rfl | rfl <;> tauto

theorem covered_parseLine {g : Graph String} (h : NodesCovered g) (line : String) :
    NodesCovered (parseLine g line) := by
  unfold parseLine
  cases hs : splitWS line with
  | nil => exact h
  | cons user friends =>
    exact foldl_inv NodesCovered _ friends g h (fun acc b _ hacc => covered_addEdge hacc user b)

theorem covered_parse (content : String) : NodesCovered (parse_adjacency_list content) := by
  unfold parse_adjacency_list
  refine foldl_inv NodesCovered _ _ _ ?_ (fun acc b _ hacc => covered_parseLine hacc b)
  intro v hv
  simp at hv

theorem neighbors_ne_nil_of_covered {α : Type} [DecidableEq α] {g : Graph α} {v : α}
    {e : α × α} (he : e ∈ g.edges) (hcov : e.1 = v ∨ e.2 = v) : neighbors g v ≠ [] := by
  by_cases h1 : e.1 = v
  · exact List.ne_nil_of_mem ((mem_neighbors_iff g v e.2).2 ⟨e, he, Or.inl ⟨h1, rfl⟩⟩)
  · have h2 : e.2 = v := by tauto
    exact List.ne_nil_of_mem ((mem_neighbors_iff g v e.1).2 ⟨e, he, Or.inr ⟨rfl, h2⟩⟩)

/-- Claim C10: the parser yields no isolated nodes.  A line with a single
token adds neither a node nor an edge (second conjunct), and every node of a
parsed graph is an endpoint of at least one edge, so its neighbor list is
never empty (first conjunct). -/
theorem c10_no_isolated_nodes :
    (∀ (content : String), ∀ v ∈ (parse_adjacency_list content).nodes,
        neighbors (parse_adjacency_list content) v ≠ []) ∧
    (∀ (g : Graph String) (line : String) (u : String),
        splitWS line = [u] → parseLine g line = g) := by
  constructor
  · intro content v hv
    obtain ⟨e, he, hcov⟩ := covered_parse content v hv
    exact neighbors_ne_nil_of_covered he hcov
  · intro g line u hs
    unfold parseLine
    rw [hs]
    rfl

theorem c10_witness :
    neighbors (parse_adjacency_list "a b\nc") "b" ≠ [] ∧
      parseLine ⟨[], []⟩ "c" = (⟨[], []⟩ : Graph String) :=
  ⟨c10_no_isolated_nodes.1 "a b\nc" "b" (by decide),
    c10_no_isolated_nodes.2 ⟨[], []⟩ "c" "c" (by decide)⟩

theorem noselfloops_addEdge {α : Type} [DecidableEq α] {g : Graph α}
    (h : NoSelfLoops g) {u v : α} (hne : u ≠ v) : NoSelfLoops (addEdge g u v) := by
  intro e he
  rw [edges_addEdge] at he
  by_cases hdup : g.edges.any (fun e => sameEdge e (u, v))
  · rw [if_pos hdup] at he
    exact h e he
  · rw [if_neg hdup] at he
    rcases List.mem_append.1 he with he | he
    · exact h e he
    · have : e = (u, v) := by simpa using he
      subst this
      exact hne

/-- Claim C3 is false on the code: the parser passes every `(user, friend)`
token pair straight to `graph.add_edge`, so the input line "a a" stores the
self-loop `(a, a)` and `a` is a member of its own neighbor list; the same
self-loop is stored when the two tokens are separated by any other Python
whitespace character, such as the file-separator control U+001C. -/
theorem c3_counterexample :
    ("a" ∈ neighbors (parse_adjacency_list "a a") "a" ∧
      (parse_adjacency_list "a a").edges = [("a", "a")]) ∧
      (parse_adjacency_list "a\x1ca").edges = [("a", "a")] := by decide

/-- Claim C3 (amended): the parser performs no self-loop filtering; a
self-loop appears exactly when some line repeats its subject token among its
friend tokens.  For every input in which no line lists its first token among
its remaining tokens, the parsed graph has no self-loop: no node is a member
of its own neighbor list. -/
theorem c3_amended_no_selfloops (content : String)
    (h : ∀ line ∈ splitLines content, lineSelfFriendFree line = true) :
    ∀ v : String, v ∉ neighbors (parse_adjacency_list content) v := by
  have hinv : NoSelfLoops (parse_adjacency_list content) := by
    unfold parse_adjacency_list
    refine foldl_inv NoSelfLoops _ _ _ (fun e he => by simp at he) ?_
    intro acc line hline hacc
    have hfree := h line hline
    unfold parseLine
    cases hs : splitWS line with
    | nil => exact hacc
    | cons user friends =>
      have huser : user ∉ friends := by
        unfold lineSelfFriendFree at hfree
        rw [hs] at hfree
        simpa using hfree
      refine foldl_inv NoSelfLoops _ friends acc hacc ?_
      intro acc' b hb hacc'
      exact noselfloops_addEdge hacc' (fun hub => huser (hub ▸ hb))
  intro v hv
  obtain ⟨e, he, h1, h2⟩ := (selfloop_mem_neighbors _ v).1 hv
  exact hinv e he (h1.trans h2.symm)

theorem c3_amended_witness : "b" ∉ neighbors (parse_adjacency_list "a b\nb c") "b" :=
  c3_amended_no_selfloops "a b\nb c" (by decide) "b"

set_option maxRecDepth 10000 in
/-- Claim C1 is false on the code: `calculate_metrics` exposes no sample-size
parameter and always passes `k = min(100, |V|)` to betweenness; on the
101-node path graph only 100 of the 101 nodes serve as BFS sources even
though the caller supplied nothing. -/
theorem c1_counterexample :
    betweennessSampleK pathGraph101 = 100 ∧ pathGraph101.nodes.length = 101 ∧
      betweennessSampleK pathGraph101 ≠ pathGraph101.nodes.length := by decide

/-- Claim C1 (amended): betweenness centrality is always computed with
`k = min(100, |V|)` BFS sources and no caller-facing sample-size parameter;
every node serves as a source — the exact computation — precisely when the
graph has at most 100 nodes. -/
theorem c1_amended_sampling {α : Type} (g : Graph α) :
    betweennessSampleK g = g.nodes.length ↔ g.nodes.length ≤ 100 := by
  unfold betweennessSampleK
  omega

/-! ## The handshake identity for degree centrality (C9) -/

theorem sum_map_add_split {β : Type} (f h : β → ℚ) (l : List β) :
    (l.map (fun x => f x + h x)).sum = (l.map f).sum + (l.map h).sum := by
  induction l with
  | nil => simp
  | cons y ys ih => simp [ih]; ring

theorem sum_indicator_zero {α : Type} [DecidableEq α] (x : α) (ns : List α)
    (hx : x ∉ ns) : (ns.map (fun v => if x = v then (1 : ℚ) else 0)).sum = 0 := by
  induction ns with
  | nil => simp
  | cons y ys ih =>
    have hxy : x ≠ y := fun h => hx (h ▸ List.mem_cons_self y ys)
    have hxs : x ∉ ys := fun h => hx (List.mem_cons_of_mem y h)
    simp [hxy, ih hxs]

theorem sum_indicator_one {α : Type} [DecidableEq α] (x : α) (ns : List α)
    (hx : x ∈ ns) (hn : ns.Nodup) :
    (ns.map (fun v => if x = v then (1 : ℚ) else 0)).sum = 1 := by
  induction ns with
  | nil => simp at hx
  | cons y ys ih =>
    rcases List.mem_cons.1 hx with rfl | hx'
    · have : x ∉ ys := (List.nodup_cons.1 hn).1
      simp [sum_indicator_zero x ys this]
    · have hxy : x ≠ y := fun h => (List.nodup_cons.1 hn).1 (h ▸ hx')
      simp [hxy, ih hx' (List.nodup_cons.1 hn).2]

theorem degree_sum_eq {α : Type} [DecidableEq α] (ns : List α) (hn : ns.Nodup) :
    ∀ (es : List (α × α)), (∀ e ∈ es, e.1 ∈ ns ∧ e.2 ∈ ns) →
      (ns.map (fun v =>
        (es.map (fun e => (if e.1 = v then (1 : ℚ) else 0) +
          (if e.2 = v then (1 : ℚ) else 0))).sum)).sum = 2 * es.length
  | [], _ => by simp
  | e :: es, h => by
    have he := h e (by simp)
    have hrest : ∀ f ∈ es, f.1 ∈ ns ∧ f.2 ∈ ns := fun f hf => h f (by simp [hf])
    have ih := degree_sum_eq ns hn es hrest
    have split1 : ∀ v, ((e :: es).map (fun f => (if f.1 = v then (1 : ℚ) else 0) +
        (if f.2 = v then (1 : ℚ) else 0))).sum =
        ((if e.1 = v then (1 : ℚ) else 0) + (if e.2 = v then (1 : ℚ) else 0)) +
        (es.map (fun f => (if f.1 = v then (1 : ℚ) else 0) +
          (if f.2 = v then (1 : ℚ) else 0))).sum := by
      intro v
      simp
    calc (ns.map (fun v => ((e :: es).map (fun f => (if f.1 = v then (1 : ℚ) else 0) +
            (if f.2 = v then (1 : ℚ) else 0))).sum)).sum
        = (ns.map (fun v =>
            ((if e.1 = v then (1 : ℚ) else 0) + (if e.2 = v then (1 : ℚ) else 0)) +
            (es.map (fun f => (if f.1 = v then (1 : ℚ) else 0) +
              (if f.2 = v then (1 : ℚ) else 0))).sum)).sum := by
          exact congrArg List.sum (List.map_congr_left (fun v _ => split1 v))
      _ = (ns.map (fun v => (if e.1 = v then (1 : ℚ) else 0) +
            (if e.2 = v then (1 : ℚ) else 0))).sum +
          (ns.map (fun v => (es.map (fun f => (if f.1 = v then (1 : ℚ) else 0) +
            (if f.2 = v then (1 : ℚ) else 0))).sum)).sum := sum_map_add_split _ _ ns
      _ = ((ns.map (fun v => if e.1 = v then (1 : ℚ) else 0)).sum +
            (ns.map (fun v => if e.2 = v then (1 : ℚ) else 0)).sum) +
          2 * es.length := by rw [sum_map_add_split, ih]
      _ = (1 + 1) + 2 * es.length := by
          rw [sum_indicator_one e.1 ns he.1 hn, sum_indicator_one e.2 ns he.2 hn]
      _ = 2 * (e :: es).length := by
          simp [List.length_cons]
          ring

theorem degreeQ_eq {α : Type} [DecidableEq α] (g : Graph α) (v : α) :
    ((degree g v : Nat) : ℚ) =
      (g.edges.map (fun e => (if e.1 = v then (1 : ℚ) else 0) +
        (if e.2 = v then (1 : ℚ) else 0))).sum := by
  unfold degree
  induction g.edges with
  | nil => simp
  | cons e es ih =>
    simp only [List.map_cons, List.sum_cons, Nat.cast_add, ih]
    congr 1
    push_cast [apply_ite (fun n : Nat => (n : ℚ))]
    ring

/-- Claim C9 is false on the code as stated over all graphs the program can
build: the parsed input "a a" yields one node with a self-loop; networkx
gives a 1-node graph degree centrality 1, multiplying by `|V| - 1 = 0` gives
0, but `2·|E| = 2`. -/
theorem c9_counterexample :
    ¬ (((degree_centrality (parse_adjacency_list "a a")).map
          (fun p => p.2 * (((parse_adjacency_list "a a").nodes.length : ℚ) - 1))).sum
        = 2 * ((parse_adjacency_list "a a").edges.length : ℚ)) := by decide

/-- Claim C9 (amended): for every well-formed graph that is not a single
node carrying a self-loop — that is, whenever the graph has at least two
nodes or has no self-loop — the sum over all nodes of degree centrality
times `|V| - 1` equals `2·|E|` (handshake lemma). -/
theorem c9_amended_handshake {α : Type} [DecidableEq α] (g : Graph α) (hwf : WF g)
    (h : 2 ≤ g.nodes.length ∨ NoSelfLoops g) :
    ((degree_centrality g).map (fun p => p.2 * ((g.nodes.length : ℚ) - 1))).sum
      = 2 * (g.edges.length : ℚ) := by
  obtain ⟨hnodup, hends, _⟩ := hwf
  by_cases hn : g.nodes.length ≤ 1
  · have hloops : NoSelfLoops g := by
      rcases h with h | h
      · omega
      · exact h
    have hes : g.edges = [] := by
      rcases hcase : g.nodes with _ | ⟨a, rest⟩
      · refine List.eq_nil_iff_forall_not_mem.2 (fun e he => ?_)
        have := hends e he
        rw [hcase] at this
        simp at this
      · have hrest : rest = [] := by
          have := congrArg List.length hcase
          simp at this
          cases rest with
          | nil => rfl
          | cons b bs => simp at this; omega
        subst hrest
        refine List.eq_nil_iff_forall_not_mem.2 (fun e he => ?_)
        have hmem := hends e he
        rw [hcase] at hmem
        simp at hmem
        exact hloops e he (hmem.1.trans hmem.2.symm)
    unfold degree_centrality
    rw [if_pos hn, hes]
    rcases hc2 : g.nodes with _ | ⟨a, rest⟩
    · simp
    · have hrlen : rest.length = 0 := by
        have hlen := congrArg List.length hc2
        simp at hlen
        omega
      have hrnil : rest = [] := List.length_eq_zero.1 hrlen
      subst hrnil
      simp
  · push_neg at hn
    have hne : ((g.nodes.length : ℚ) - 1) ≠ 0 := by
      have : (2 : ℚ) ≤ (g.nodes.length : ℚ) := by exact_mod_cast hn
      intro hc
      nlinarith
    unfold degree_centrality
    rw [if_neg (by omega)]
    rw [List.map_map]
    have step : ∀ v ∈ g.nodes,
        ((fun p : α × ℚ => p.2 * ((g.nodes.length : ℚ) - 1)) ∘
          (fun v => (v, (degree g v : ℚ) / ((g.nodes.length : ℚ) - 1)))) v =
        (g.edges.map (fun e => (if e.1 = v then (1 : ℚ) else 0) +
          (if e.2 = v then (1 : ℚ) else 0))).sum := by
      intro v _
      simp only [Function.comp]
      rw [div_mul_cancel₀ _ hne, degreeQ_eq]
    rw [List.map_congr_left step]
    exact degree_sum_eq g.nodes hnodup g.edges hends

theorem c9_witness :
    WF (parse_adjacency_list "a b\nb c") ∧
      2 ≤ (parse_adjacency_list "a b\nb c").nodes.length ∧
      ((degree_centrality (parse_adjacency_list "a b\nb c")).map
          (fun p => p.2 * (((parse_adjacency_list "a b\nb c").nodes.length : ℚ) - 1))).sum
        = 2 * ((parse_adjacency_list "a b\nb c").edges.length : ℚ) :=
  ⟨by decide, by decide,
    c9_amended_handshake (parse_adjacency_list "a b\nb c") (by decide) (Or.inl (by decide))⟩

/-! ## The insertion sort used to model Python's `sorted` -/

theorem mem_insertSorted {β : Type} (lt : β → β → Bool) (x : β) :
    ∀ (l : List β) (a : β), a ∈ insertSorted lt x l ↔ a = x ∨ a ∈ l
  | [], a => by simp [insertSorted]
  | y :: ys, a => by
    unfold insertSorted
    split
    · simp
    · rw [List.mem_cons, mem_insertSorted lt x ys a, List.mem_cons]
      tauto

theorem insertSorted_perm {β : Type} (lt : β → β → Bool) (x : β) :
    ∀ (l : List β), (insertSorted lt x l).Perm (x :: l)
  | [] => List.Perm.refl _
  | y :: ys => by
    unfold insertSorted
    split
    · exact List.Perm.refl _
    · exact ((insertSorted_perm lt x ys).cons y).trans (List.Perm.swap x y ys)

theorem sortL_perm {β : Type} (lt : β → β → Bool) :
    ∀ (l : List β), (sortL lt l).Perm l
  | [] => List.Perm.refl _
  | x :: xs => (insertSorted_perm lt x (sortL lt xs)).trans ((sortL_perm lt xs).cons x)

theorem pairwise_insertSorted {β : Type} (lt : β → β → Bool)
    (H1 : ∀ a b c, lt a b = false → lt b c = false → lt a c = false)
    (H2 : ∀ a b, lt a b = true → lt b a = false) (x : β) :
    ∀ (l : List β), l.Pairwise (fun a b => lt b a = false) →
      (insertSorted lt x l).Pairwise (fun a b => lt b a = false)
  | [], _ => by simp [insertSorted]
  | y :: ys, hp => by
    obtain ⟨hy, hys⟩ := List.pairwise_cons.1 hp
    unfold insertSorted
    split
    next hxy =>
      refine List.pairwise_cons.2 ⟨?_, hp⟩
      intro z hz
      rcases List.mem_cons.1 hz with rfl | hz'
      · exact H2 x z hxy
      · exact H1 z y x (hy z hz') (H2 x y hxy)
    next hxy =>
      refine List.pairwise_cons.2 ⟨?_, pairwise_insertSorted lt H1 H2 x ys hys⟩
      intro z hz
      rcases (mem_insertSorted lt x ys z).1 hz with rfl | hz'
      · simpa using hxy
      · exact hy z hz'

theorem pairwise_sortL {β : Type} (lt : β → β → Bool)
    (H1 : ∀ a b c, lt a b = false → lt b c = false → lt a c = false)
    (H2 : ∀ a b, lt a b = true → lt b a = false) :
    ∀ (l : List β), (sortL lt l).Pairwise (fun a b => lt b a = false)
  | [] => List.Pairwise.nil
  | x :: xs => pairwise_insertSorted lt H1 H2 x _ (pairwise_sortL lt H1 H2 xs)

theorem recLt_false_iff {α : Type} (a b : Nat × (α × ℚ)) :
    recLt a b = false ↔ a.2.2 ≤ b.2.2 ∧ (a.2.2 = b.2.2 → b.1 ≤ a.1) := by
  unfold recLt
  simp only [Bool.or_eq_false_iff, Bool.and_eq_false_iff, decide_eq_false_iff_not, not_lt]
  constructor
  · rintro ⟨h1, h2⟩
    refine ⟨h1, fun heq => ?_⟩
    rcases h2 with h2 | h2
    · exact absurd heq h2
    · exact h2
  · rintro ⟨h1, h2⟩
    refine ⟨h1, ?_⟩
    by_cases heq : a.2.2 = b.2.2
    · exact Or.inr (h2 heq)
    · exact Or.inl heq

theorem recLt_true_iff {α : Type} (a b : Nat × (α × ℚ)) :
    recLt a b = true ↔ b.2.2 < a.2.2 ∨ (a.2.2 = b.2.2 ∧ a.1 < b.1) := by
  unfold recLt
  simp

theorem recLt_H1 {α : Type} : ∀ a b c : Nat × (α × ℚ),
    recLt a b = false → recLt b c = false → recLt a c = false := by
  intro a b c hab hbc
  rw [recLt_false_iff] at hab hbc ⊢
  obtain ⟨h1, h2⟩ := hab
  obtain ⟨h3, h4⟩ := hbc
  refine ⟨le_trans h1 h3, fun heq => ?_⟩
  have hb1 : a.2.2 = b.2.2 := le_antisymm h1 (heq ▸ h3)
  have hb2 : b.2.2 = c.2.2 := hb1 ▸ heq
  exact le_trans (h4 hb2) (h2 hb1)

theorem recLt_H2 {α : Type} : ∀ a b : Nat × (α × ℚ),
    recLt a b = true → recLt b a = false := by
  intro a b hab
  rw [recLt_true_iff] at hab
  rw [recLt_false_iff]
  rcases hab with h | ⟨h1, h2⟩
  · exact ⟨le_of_lt h, fun heq => absurd heq (ne_of_lt h)⟩
  · exact ⟨le_of_eq h1.symm, fun _ => le_of_lt h2⟩

theorem fakeLt_false_iff {α : Type} (a b : Nat × (α × ℚ)) :
    fakeLt a b = false ↔ b.2.2 ≤ a.2.2 ∧ (a.2.2 = b.2.2 → b.1 ≤ a.1) := by
  unfold fakeLt
  simp only [Bool.or_eq_false_iff, Bool.and_eq_false_iff, decide_eq_false_iff_not, not_lt]
  constructor
  · rintro ⟨h1, h2⟩
    refine ⟨h1, fun heq => ?_⟩
    rcases h2 with h2 | h2
    · exact absurd heq h2
    · exact h2
  · rintro ⟨h1, h2⟩
    refine ⟨h1, ?_⟩
    by_cases heq : a.2.2 = b.2.2
    · exact Or.inr (h2 heq)
    · exact Or.inl heq

theorem fakeLt_true_iff {α : Type} (a b : Nat × (α × ℚ)) :
    fakeLt a b = true ↔ a.2.2 < b.2.2 ∨ (a.2.2 = b.2.2 ∧ a.1 < b.1) := by
  unfold fakeLt
  simp

theorem fakeLt_H1 {α : Type} : ∀ a b c : Nat × (α × ℚ),
    fakeLt a b = false → fakeLt b c = false → fakeLt a c = false := by
  intro a b c hab hbc
  rw [fakeLt_false_iff] at hab hbc ⊢
  obtain ⟨h1, h2⟩ := hab
  obtain ⟨h3, h4⟩ := hbc
  refine ⟨le_trans h3 h1, fun heq => ?_⟩
  have hb1 : a.2.2 = b.2.2 := le_antisymm (heq ▸ h3) h1
  have hb2 : b.2.2 = c.2.2 := hb1 ▸ heq
  exact le_trans (h4 hb2) (h2 hb1)

theorem fakeLt_H2 {α : Type} : ∀ a b : Nat × (α × ℚ),
    fakeLt a b = true → fakeLt b a = false := by
  intro a b hab
  rw [fakeLt_true_iff] at hab
  rw [fakeLt_false_iff]
  rcases hab with h | ⟨h1, h2⟩
  · exact ⟨le_of_lt h, fun heq => absurd heq.symm (ne_of_lt h)⟩
  · exact ⟨le_of_eq h1, fun _ => le_of_lt h2⟩

/-! ## Neighbor lists as sets (C5) -/

theorem nbrOf_eq {α : Type} [DecidableEq α] {v x : α} {e : α × α}
    (h : (if e.1 = v then some e.2 else if e.2 = v then some e.1 else none) = some x) :
    e = (v, x) ∨ e = (x, v) := by
  by_cases h1 : e.1 = v
  · rw [if_pos h1] at h
    left
    obtain rfl := Option.some.inj h
    exact Prod.ext h1 rfl
  · by_cases h2 : e.2 = v
    · rw [if_neg h1, if_pos h2] at h
      right
      obtain rfl := Option.some.inj h
      exact Prod.ext rfl h2
    · simp [h1, h2] at h

theorem filterMap_nbr_nodup {α : Type} [DecidableEq α] (v : α) :
    ∀ (es : List (α × α)), es.Pairwise (fun e f => sameEdge e f = false) →
      (es.filterMap (fun e =>
        if e.1 = v then some e.2 else if e.2 = v then some e.1 else none)).Nodup
  | [], _ => by simp
  | e :: es, hp => by
    obtain ⟨he, hes⟩ := List.pairwise_cons.1 hp
    rw [List.filterMap_cons]
    cases hfe : (if e.1 = v then some e.2 else if e.2 = v then some e.1 else none) with
    | none => exact filterMap_nbr_nodup v es hes
    | some x =>
      refine List.nodup_cons.2 ⟨?_, filterMap_nbr_nodup v es hes⟩
      intro hx
      obtain ⟨f, hf, hff⟩ := List.mem_filterMap.1 hx
      have h1 := nbrOf_eq hfe
      have h2 := nbrOf_eq hff
      have hsame : sameEdge e f = true := by
        rcases h1 with rfl | rfl <;> rcases h2 with h2 | h2 <;> rw [h2] <;> simp [sameEdge]
      rw [he f hf] at hsame
      exact Bool.false_ne_true hsame

theorem neighbors_nodup {α : Type} [DecidableEq α] {g : Graph α}
    (hp : g.edges.Pairwise (fun e f => sameEdge e f = false)) (v : α) :
    (neighbors g v).Nodup :=
  filterMap_nbr_nodup v g.edges hp

theorem hasEdge_iff_mem {α : Type} [DecidableEq α] (g : Graph α) (u x : α) :
    hasEdge g u x = true ↔ x ∈ neighbors g u := by
  unfold hasEdge
  rw [List.any_eq_true, mem_neighbors_iff]
  constructor
  · rintro ⟨e, he, hs⟩
    rcases (sameEdge_true_iff e (u, x)).1 hs with ⟨h1, h2⟩ | ⟨h1, h2⟩
    · exact ⟨e, he, Or.inl ⟨h1, h2⟩⟩
    · exact ⟨e, he, Or.inr ⟨h1, h2⟩⟩
  · rintro ⟨e, he, h⟩
    exact ⟨e, he, (sameEdge_true_iff e (u, x)).2 (by tauto)⟩

theorem inter_length_eqN {α : Type} [DecidableEq α] {l₁ l₂ : List α}
    (h1 : l₁.Nodup) :
    (l₁.filter (fun x => x ∈ l₂)).length =
      (l₁.toFinset ∩ l₂.toFinset).card := by
  have hnd : (l₁.filter (fun x => x ∈ l₂)).Nodup := h1.filter _
  have hcard := List.toFinset_card_of_nodup hnd
  have hset : (l₁.filter (fun x => x ∈ l₂)).toFinset = l₁.toFinset ∩ l₂.toFinset := by
    ext x
    simp [List.mem_filter]
  rw [← hcard, hset]

theorem union_length_eqN {α : Type} [DecidableEq α] {l₁ l₂ : List α}
    (h1 : l₁.Nodup) (h2 : l₂.Nodup) :
    (l₁ ++ l₂.filter (fun x => x ∉ l₁)).length =
      (l₁.toFinset ∪ l₂.toFinset).card := by
  have hnd : (l₁ ++ l₂.filter (fun x => x ∉ l₁)).Nodup := by
    rw [List.nodup_append]
    refine ⟨h1, h2.filter _, ?_⟩
    intro x hx hx'
    have := List.of_mem_filter hx'
    simp at this
    exact this hx
  have hcard := List.toFinset_card_of_nodup hnd
  have hset : (l₁ ++ l₂.filter (fun x => x ∉ l₁)).toFinset = l₁.toFinset ∪ l₂.toFinset := by
    ext x
    simp only [List.toFinset_append, Finset.mem_union, List.mem_toFinset, List.mem_filter]
    constructor
    · rintro (hx | hx)
      · exact Or.inl hx
      · exact Or.inr hx.1
    · rintro (hx | hx)
      · exact Or.inl hx
      · by_cases hx1 : x ∈ l₁
        · exact Or.inl hx1
        · refine Or.inr ⟨hx, ?_⟩
          simpa using hx1
  rw [← hcard, hset]

theorem recEntry_some_iff {α : Type} [DecidableEq α] (g : Graph α) (user c : α) (p : α × ℚ) :
    recEntry g user c = some p ↔
      c ≠ user ∧ hasEdge g user c = false ∧
      0 < (neighbors g user ++ (neighbors g c).filter (fun x => x ∉ neighbors g user)).length ∧
      p = (c, (((neighbors g user).filter (fun x => x ∈ neighbors g c)).length : ℚ) /
        ((neighbors g user ++ (neighbors g c).filter (fun x => x ∉ neighbors g user)).length : ℚ)) := by
  unfold recEntry
  split_ifs with h1 h2
  · simp only [false_iff, not_and]
    intro hne hedge
    rcases h1 with h1 | h1
    · exact absurd h1 hne
    · intro _ _
      rw [hedge] at h1
      exact Bool.false_ne_true h1
  · push_neg at h1
    simp only [Option.some.injEq]
    constructor
    · intro h
      exact ⟨h1.1, by simpa using h1.2, h2, h.symm⟩
    · rintro ⟨_, _, _, h⟩
      exact h.symm
  · push_neg at h1
    simp only [false_iff, not_and]
    intro _ _ hlen _
    exact absurd hlen h2

theorem mem_jaccardRecs {α : Type} [DecidableEq α] (g : Graph α) (user : α) (p : α × ℚ) :
    p ∈ jaccardRecs g user ↔
      p.1 ∈ g.nodes ∧ p.1 ≠ user ∧ hasEdge g user p.1 = false ∧
      0 < (neighbors g user ++ (neighbors g p.1).filter (fun x => x ∉ neighbors g user)).length ∧
      p.2 = (((neighbors g user).filter (fun x => x ∈ neighbors g p.1)).length : ℚ) /
        ((neighbors g user ++ (neighbors g p.1).filter (fun x => x ∉ neighbors g user)).length : ℚ) := by
  unfold jaccardRecs
  rw [List.mem_filterMap]
  constructor
  · rintro ⟨c, hc, hfc⟩
    obtain ⟨hne, hedge, hlen, hp⟩ := (recEntry_some_iff g user c p).1 hfc
    subst hp
    exact ⟨hc, hne, hedge, hlen, rfl⟩
  · rintro ⟨hmem, hne, hedge, hlen, hval⟩
    refine ⟨p.1, hmem, (recEntry_some_iff g user p.1 p).2 ⟨hne, hedge, hlen, ?_⟩⟩
    exact Prod.ext rfl hval

theorem filterMap_fst_sublist {α β : Type} [DecidableEq α] (f : α → Option (α × β))
    (hf : ∀ c p, f c = some p → p.1 = c) :
    ∀ ns : List α, ((ns.filterMap f).map Prod.fst).Sublist ns
  | [] => by simp
  | c :: cs => by
    rw [List.filterMap_cons]
    cases hfc : f c with
    | none => exact (filterMap_fst_sublist f hf cs).cons c
    | some p =>
      rw [List.map_cons]
      rw [hf c p hfc]
      exact (filterMap_fst_sublist f hf cs).cons₂ c

theorem nodup_pairwise_indexOf {α : Type} [DecidableEq α] (ns : List α) (h : ns.Nodup) :
    ns.Pairwise (fun a b => ns.indexOf a < ns.indexOf b) := by
  rw [List.pairwise_iff_getElem]
  intro i j hi hj hij
  rw [List.indexOf_getElem h, List.indexOf_getElem h]
  exact hij

theorem filterMap_pairwise_idx {α β : Type} [DecidableEq α] (ns : List α) (h : ns.Nodup)
    (f : α → Option (α × β)) (hf : ∀ c p, f c = some p → p.1 = c) :
    (ns.filterMap f).Pairwise (fun p q => ns.indexOf p.1 < ns.indexOf q.1) := by
  have hpw := (nodup_pairwise_indexOf ns h).sublist (filterMap_fst_sublist f hf ns)
  rwa [List.pairwise_map] at hpw

theorem enum_nodup {β : Type} (l : List β) : l.enum.Nodup := by
  have h : l.enum.map Prod.fst = List.range l.length := List.enum_map_fst l
  have : (l.enum.map Prod.fst).Nodup := by
    rw [h]
    exact List.nodup_range _
  exact this.of_map _

theorem mem_enum_getElem {β : Type} {l : List β} {a : Nat × β} (h : a ∈ l.enum) :
    ∃ hlt : a.1 < l.length, l[a.1] = a.2 := by
  have h2 := List.mem_enum_iff_getElem?.1 h
  obtain ⟨hlt, heq⟩ := List.getElem?_eq_some.1 h2
  exact ⟨hlt, heq⟩

/-- Claim C5 is false on the code: ties are kept in the graph's node
insertion order by Python's stable sort, not re-ordered by ascending
candidate identifier.  On the input "q x; z x; a x" both candidates "z" and
"a" score 1, and the code returns "z" first although "a" < "z". -/
theorem c5_counterexample :
    recommend_friends (parse_adjacency_list "q x\nz x\na x") "q" = [("z", 1), ("a", 1)] ∧
      ¬ List.Pairwise recClaimRel [(("z" : String), (1 : ℚ)), ("a", 1)] := by
  constructor
  · decide
  · intro hpw
    have h := (List.pairwise_cons.1 hpw).1 ("a", 1) (by simp)
    rcases h with h | ⟨_, h2⟩
    · exact absurd h (by norm_num)
    · refine absurd h2 ?_
      rw [String.lt_iff_toList_lt]
      decide

/-- Claim C5 (amended): on a well-formed graph, the recommendation list has
at most 5 entries; every entry is a node that is neither the query user nor
one of its neighbors, has a non-empty neighbor-set union with the user, and
carries exactly the Jaccard similarity of the two neighbor sets; and the
list is ordered by strictly descending score with ties kept in the graph's
node-iteration order (the stable-sort order of the code), not by ascending
identifier. -/
theorem c5_amended_recommendations {α : Type} [DecidableEq α] (g : Graph α) (user : α)
    (hwf : WF g) :
    (recommend_friends g user).length ≤ 5 ∧
    (∀ p ∈ recommend_friends g user,
        p.1 ∈ g.nodes ∧ p.1 ≠ user ∧ p.1 ∉ neighbors g user ∧
        ((neighbors g user).toFinset ∪ (neighbors g p.1).toFinset).card ≠ 0 ∧
        p.2 = jaccardSets g user p.1) ∧
    (recommend_friends g user).Pairwise (recCodeRel g) := by
  have hpair := hwf.2.2
  refine ⟨?_, ?_, ?_⟩
  · unfold recommend_friends
    rw [List.length_take]
    exact min_le_left _ _
  · intro p hp
    have hpm : p ∈ jaccardRecs g user := by
      unfold recommend_friends at hp
      have h1 := (List.take_sublist 5 _).subset hp
      obtain ⟨ip, hip, hip2⟩ := List.mem_map.1 h1
      have hipE : ip ∈ (jaccardRecs g user).enum := ((sortL_perm recLt _).mem_iff).1 hip
      have h2 : ip.2 ∈ (jaccardRecs g user).enum.map Prod.snd := List.mem_map_of_mem _ hipE
      rw [List.enum_map_snd] at h2
      exact hip2 ▸ h2
    obtain ⟨h1, h2, h3, h4, h5⟩ := (mem_jaccardRecs g user p).1 hpm
    refine ⟨h1, h2, ?_, ?_, ?_⟩
    · intro hmem
      rw [← hasEdge_iff_mem, h3] at hmem
      exact Bool.false_ne_true hmem
    · rw [← union_length_eqN (neighbors_nodup hpair user) (neighbors_nodup hpair p.1)]
      omega
    · unfold jaccardSets
      rw [← inter_length_eqN (neighbors_nodup hpair user),
          ← union_length_eqN (neighbors_nodup hpair user) (neighbors_nodup hpair p.1)]
      exact h5
  · have hS := pairwise_sortL recLt recLt_H1 recLt_H2 (jaccardRecs g user).enum
    have hSnodup : (sortL recLt (jaccardRecs g user).enum).Nodup :=
      ((sortL_perm recLt _).nodup_iff).2 (enum_nodup _)
    have hidx : (jaccardRecs g user).Pairwise
        (fun p q => g.nodes.indexOf p.1 < g.nodes.indexOf q.1) :=
      filterMap_pairwise_idx g.nodes hwf.1 (recEntry g user)
        (fun c p h => by
          obtain ⟨_, _, _, hp⟩ := (recEntry_some_iff g user c p).1 h
          rw [hp])
    have hD : ∀ a b : Nat × (α × ℚ), a ∈ (jaccardRecs g user).enum →
        b ∈ (jaccardRecs g user).enum → a.1 < b.1 →
        g.nodes.indexOf a.2.1 < g.nodes.indexOf b.2.1 := by
      intro a b ha hb hab
      obtain ⟨hla, hga⟩ := mem_enum_getElem ha
      obtain ⟨hlb, hgb⟩ := mem_enum_getElem hb
      have h := List.pairwise_iff_getElem.1 hidx a.1 b.1 hla hlb hab
      rwa [hga, hgb] at h
    have hS2 := hS.and hSnodup
    have hS3 : (sortL recLt (jaccardRecs g user).enum).Pairwise
        (fun a b => recCodeRel g a.2 b.2) := by
      refine hS2.imp_of_mem ?_
      intro a b ha hb hab
      obtain ⟨hlt, hne⟩ := hab
      have haE : a ∈ (jaccardRecs g user).enum := ((sortL_perm recLt _).mem_iff).1 ha
      have hbE : b ∈ (jaccardRecs g user).enum := ((sortL_perm recLt _).mem_iff).1 hb
      rw [recLt_false_iff] at hlt
      obtain ⟨hle, htie⟩ := hlt
      unfold recCodeRel
      by_cases heq : a.2.2 = b.2.2
      · right
        refine ⟨heq, ?_⟩
        have hab1 : a.1 ≤ b.1 := htie heq.symm
        have hab2 : a.1 ≠ b.1 := by
          intro hc
          apply hne
          obtain ⟨hla, hga⟩ := mem_enum_getElem haE
          obtain ⟨hlb, hgb⟩ := mem_enum_getElem hbE
          have hq1 : (jaccardRecs g user)[a.1]? = some a.2 := by
            rw [List.getElem?_eq_getElem hla, hga]
          have hq2 : (jaccardRecs g user)[b.1]? = some b.2 := by
            rw [List.getElem?_eq_getElem hlb, hgb]
          rw [hc, hq2] at hq1
          exact Prod.ext hc (Option.some.inj hq1).symm
        exact hD a b haE hbE (lt_of_le_of_ne hab1 hab2)
      · left
        exact lt_of_le_of_ne hle (fun hc => heq hc.symm)
    unfold recommend_friends
    exact ((List.pairwise_map).2 hS3).sublist (List.take_sublist 5 _)

theorem c5_witness :
    (recommend_friends (parse_adjacency_list "q x\nz x\na x") "q").Pairwise
      (recCodeRel (parse_adjacency_list "q x\nz x\na x")) :=
  (c5_amended_recommendations (parse_adjacency_list "q x\nz x\na x") "q" (by decide)).2.2

/-- Claim C6: the anomaly detector returns at most 10 pairs; every returned
pair is one of the graph's (node, clustering coefficient) entries with
coefficient strictly below `threshold` times the average clustering; the
returned pairs are sorted by ascending coefficient; and — subject only to
the top-10 truncation — every node whose coefficient is below the threshold
appears in the output. -/
theorem c6_anomaly_detector {α : Type} [DecidableEq α] (g : Graph α) (t : ℚ) :
    (detect_potential_fake_accounts g t).length ≤ 10 ∧
    (∀ p ∈ detect_potential_fake_accounts g t,
        p ∈ clustering g ∧ p.2 < t * average_clustering g) ∧
    (detect_potential_fake_accounts g t).Pairwise (fun a b => a.2 ≤ b.2) ∧
    (((clustering g).filter (fun p => p.2 < t * average_clustering g)).length ≤ 10 →
      ∀ p ∈ clustering g, p.2 < t * average_clustering g →
        p ∈ detect_potential_fake_accounts g t) := by
  refine ⟨?_, ?_, ?_, ?_⟩
  · unfold detect_potential_fake_accounts
    rw [List.length_take]
    exact min_le_left _ _
  · intro p hp
    unfold detect_potential_fake_accounts at hp
    have h1 := (List.take_sublist 10 _).subset hp
    obtain ⟨ip, hip, hip2⟩ := List.mem_map.1 h1
    have hipE := ((sortL_perm fakeLt _).mem_iff).1 hip
    have h2 : ip.2 ∈ ((clustering g).filter
        (fun p => p.2 < t * average_clustering g)).enum.map Prod.snd :=
      List.mem_map_of_mem _ hipE
    rw [List.enum_map_snd] at h2
    rw [← hip2]
    have h3 := List.mem_filter.1 h2
    exact ⟨h3.1, by simpa using h3.2⟩
  · have hS := pairwise_sortL fakeLt fakeLt_H1 fakeLt_H2
      ((clustering g).filter (fun p => p.2 < t * average_clustering g)).enum
    have hS2 : (sortL fakeLt ((clustering g).filter
        (fun p => p.2 < t * average_clustering g)).enum).Pairwise
        (fun a b => a.2.2 ≤ b.2.2) := by
      refine hS.imp ?_
      intro a b hab
      exact ((fakeLt_false_iff b a).1 hab).1
    have hS3 : ((sortL fakeLt ((clustering g).filter
        (fun p => p.2 < t * average_clustering g)).enum).map (fun q => q.2)).Pairwise
        (fun a b : α × ℚ => a.2 ≤ b.2) := by
      rw [List.pairwise_map]
      exact hS2
    unfold detect_potential_fake_accounts
    exact hS3.sublist (List.take_sublist 10 _)
  · intro hlen p hp hflag
    have hpf : p ∈ (clustering g).filter (fun p => p.2 < t * average_clustering g) :=
      List.mem_filter.2 ⟨hp, by simpa using hflag⟩
    obtain ⟨i, hi, hgi⟩ := List.mem_iff_getElem.1 hpf
    have hE : (i, p) ∈ ((clustering g).filter
        (fun p => p.2 < t * average_clustering g)).enum := by
      apply List.mem_enum_iff_getElem?.2
      rw [List.getElem?_eq_getElem hi, hgi]
    have hmemS := ((sortL_perm fakeLt _).mem_iff).2 hE
    have hmap : p ∈ (sortL fakeLt ((clustering g).filter
        (fun p => p.2 < t * average_clustering g)).enum).map (fun q => q.2) :=
      List.mem_map_of_mem _ hmemS
    unfold detect_potential_fake_accounts
    rw [List.take_of_length_le]
    · exact hmap
    · rw [List.length_map]
      calc (sortL fakeLt ((clustering g).filter
            (fun p => p.2 < t * average_clustering g)).enum).length
          = ((clustering g).filter
            (fun p => p.2 < t * average_clustering g)).enum.length :=
            (sortL_perm fakeLt _).length_eq
        _ = ((clustering g).filter (fun p => p.2 < t * average_clustering g)).length :=
            List.enum_length
        _ ≤ 10 := hlen

theorem c6_witness :
    ((("d" : String), (0 : ℚ)) ∈ clustering (parse_adjacency_list "a b\nb c\nc a\nd e")) ∧
    (("d", (0 : ℚ)) ∈ detect_potential_fake_accounts
        (parse_adjacency_list "a b\nb c\nc a\nd e") (1 / 10)) :=
  ⟨by decide,
    (c6_anomaly_detector (parse_adjacency_list "a b\nb c\nc a\nd e") (1 / 10)).2.2.2
      (by decide) ("d", 0) (by decide) (by decide)⟩

/-! ## Correctness of the level-synchronous BFS (C2, C7) -/

theorem foldl_append_nbrs {α : Type} [DecidableEq α] (g : Graph α) :
    ∀ (vs : List α) (acc : List α),
      vs.foldl (fun acc v => acc ++ neighbors g v) acc = acc ++ (vs.map (neighbors g)).join
  | [], acc => by simp
  | v :: vs, acc => by
    rw [List.foldl_cons, foldl_append_nbrs g vs (acc ++ neighbors g v)]
    simp [List.append_assoc]

theorem mem_nbrsList {α : Type} [DecidableEq α] (g : Graph α) (vs : List α) (u : α) :
    u ∈ nbrsList g vs ↔ ∃ w ∈ vs, u ∈ neighbors g w := by
  unfold nbrsList
  rw [foldl_append_nbrs]
  simp [List.mem_join]

theorem mem_ball_zero {α : Type} [DecidableEq α] (g : Graph α) (s u : α) :
    u ∈ ball g s 0 ↔ u = s := by
  simp [ball]

theorem mem_ball_succ {α : Type} [DecidableEq α] (g : Graph α) (s u : α) (k : Nat) :
    u ∈ ball g s (k + 1) ↔ u ∈ ball g s k ∨ ∃ w ∈ ball g s k, u ∈ neighbors g w := by
  show u ∈ ball g s k ++ nbrsList g (ball g s k) ↔ _
  rw [List.mem_append, mem_nbrsList]

theorem ball_mono_succ {α : Type} [DecidableEq α] (g : Graph α) (s u : α) (k : Nat)
    (h : u ∈ ball g s k) : u ∈ ball g s (k + 1) :=
  (mem_ball_succ g s u k).2 (Or.inl h)

theorem ball_mono {α : Type} [DecidableEq α] (g : Graph α) (s u : α) :
    ∀ {k m : Nat}, k ≤ m → u ∈ ball g s k → u ∈ ball g s m := by
  intro k m hkm h
  induction m with
  | zero =>
    have : k = 0 := Nat.le_zero.1 hkm
    exact this ▸ h
  | succ m ih =>
    rcases Nat.lt_or_ge k (m + 1) with hlt | hge
    · exact ball_mono_succ g s u m (ih (Nat.lt_succ_iff.1 hlt))
    · have : k = m + 1 := le_antisymm hkm hge
      exact this ▸ h

theorem ball_subset_nodes {α : Type} [DecidableEq α] {g : Graph α} {s : α}
    (hwf : WF g) (hs : s ∈ g.nodes) : ∀ (k : Nat) (u : α), u ∈ ball g s k → u ∈ g.nodes
  | 0, u, h => ((mem_ball_zero g s u).1 h) ▸ hs
  | k + 1, u, h => by
    rcases (mem_ball_succ g s u k).1 h with h | ⟨w, _, hw⟩
    · exact ball_subset_nodes hwf hs k u h
    · exact neighbors_subset_nodes hwf.2.1 hw

theorem exactD_self {α : Type} [DecidableEq α] (g : Graph α) (s : α) :
    exactD g s 0 s :=
  ⟨(mem_ball_zero g s s).2 rfl, fun j hj => absurd hj (Nat.not_lt_zero j)⟩

theorem exact_of_mem_ball {α : Type} [DecidableEq α] (g : Graph α) (s : α) :
    ∀ (k : Nat) (u : α), u ∈ ball g s k → ∃ j ≤ k, exactD g s j u
  | 0, u, h => ⟨0, le_refl 0, (mem_ball_zero g s u).1 h ▸ exactD_self g s⟩
  | k + 1, u, h => by
    by_cases hk : u ∈ ball g s k
    · obtain ⟨j, hj, he⟩ := exact_of_mem_ball g s k u hk
      exact ⟨j, le_trans hj (Nat.le_succ k), he⟩
    · refine ⟨k + 1, le_refl _, h, ?_⟩
      intro j hj hu
      exact hk (ball_mono g s u (Nat.lt_succ_iff.1 hj) hu)

theorem ball_saturates {α : Type} [DecidableEq α] (g : Graph α) (s : α) (ℓ : Nat)
    (hsub : ∀ u, u ∈ ball g s (ℓ + 1) → u ∈ ball g s ℓ) :
    ∀ (m : Nat), ℓ ≤ m → ∀ u, u ∈ ball g s m → u ∈ ball g s ℓ := by
  intro m
  induction m with
  | zero =>
    intro hm u hu
    have : ℓ = 0 := Nat.le_zero.1 hm
    exact this ▸ hu
  | succ m ih =>
    intro hm u hu
    rcases Nat.lt_or_ge ℓ (m + 1) with hlt | hge
    · have hm' : ℓ ≤ m := Nat.lt_succ_iff.1 hlt
      rcases (mem_ball_succ g s u m).1 hu with hu | ⟨w, hw, hnb⟩
      · exact ih hm' u hu
      · have hw' : w ∈ ball g s ℓ := ih hm' w hw
        exact hsub u ((mem_ball_succ g s u ℓ).2 (Or.inr ⟨w, hw', hnb⟩))
    · have : ℓ = m + 1 := le_antisymm hm hge
      exact this ▸ hu

theorem no_exact_above {α : Type} [DecidableEq α] (g : Graph α) (s : α) (ℓ : Nat)
    (hne : ∀ u, ¬ exactD g s ℓ u) :
    ∀ (d : Nat), ℓ ≤ d → ∀ u, ¬ exactD g s d u := by
  cases ℓ with
  | zero => exact absurd (exactD_self g s) (hne s)
  | succ ℓ =>
    have hsub : ∀ u, u ∈ ball g s (ℓ + 1) → u ∈ ball g s ℓ := by
      intro u hu
      obtain ⟨j, hj, he⟩ := exact_of_mem_ball g s (ℓ + 1) u hu
      rcases Nat.lt_or_ge j (ℓ + 1) with hlt | hge
      · exact ball_mono g s u (Nat.lt_succ_iff.1 hlt) he.1
      · have : j = ℓ + 1 := le_antisymm hj hge
        exact absurd (this ▸ he) (hne u)
    intro d hd u hex
    have hu : u ∈ ball g s ℓ := ball_saturates g s ℓ hsub d (le_trans (Nat.le_succ ℓ) hd) u hex.1
    exact hex.2 ℓ (lt_of_lt_of_le (Nat.lt_succ_self ℓ) hd) hu

theorem containsKey_iff_exists {α β : Type} [DecidableEq α] (l : List (α × β)) (k : α) :
    containsKey l k = true ↔ ∃ b, (k, b) ∈ l := by
  unfold containsKey
  rw [List.any_eq_true]
  constructor
  · rintro ⟨p, hp, he⟩
    have : p.1 = k := by simpa using he
    exact ⟨p.2, by rwa [← this, Prod.mk.eta]⟩
  · rintro ⟨b, hb⟩
    exact ⟨(k, b), hb, by simp⟩

theorem containsKey_append {α β : Type} [DecidableEq α] (l₁ l₂ : List (α × β)) (k : α) :
    containsKey (l₁ ++ l₂) k = (containsKey l₁ k || containsKey l₂ k) := by
  unfold containsKey
  exact List.any_append

theorem containsKey_map_const {α : Type} [DecidableEq α] (fd : List α) (lv : Nat) (k : α) :
    containsKey (fd.map (fun v => (v, lv))) k = fd.contains k := by
  induction fd with
  | nil => rfl
  | cons v vs ih =>
    unfold containsKey at ih ⊢
    simp only [List.map_cons, List.any_cons, List.contains_cons, ih]
    by_cases h : v = k
    · subst h
      simp
    · simp [h, Ne.symm h, beq_iff_eq]

theorem mem_keys_iff {α β : Type} (l : List (α × β)) (k : α) :
    k ∈ l.map Prod.fst ↔ ∃ b, (k, b) ∈ l := by
  rw [List.mem_map]
  constructor
  · rintro ⟨p, hp, rfl⟩
    exact ⟨p.2, by rwa [Prod.mk.eta]⟩
  · rintro ⟨b, hb⟩
    exact ⟨(k, b), hb, rfl⟩

theorem bfsFold_spec {α : Type} [DecidableEq α] (lv : Nat) :
    ∀ (frontier : List α) (seen0 : List (α × Nat)) (fd : List α),
      fd.Nodup → (∀ v ∈ fd, containsKey seen0 v = false) →
      ((frontier.foldl
          (fun acc v => if containsKey acc.1 v then acc else (acc.1 ++ [(v, lv)], acc.2 ++ [v]))
          (seen0 ++ fd.map (fun v => (v, lv)), fd)).1 =
        seen0 ++ ((frontier.foldl
          (fun acc v => if containsKey acc.1 v then acc else (acc.1 ++ [(v, lv)], acc.2 ++ [v]))
          (seen0 ++ fd.map (fun v => (v, lv)), fd)).2.map (fun v => (v, lv)))) ∧
      ((frontier.foldl
          (fun acc v => if containsKey acc.1 v then acc else (acc.1 ++ [(v, lv)], acc.2 ++ [v]))
          (seen0 ++ fd.map (fun v => (v, lv)), fd)).2.Nodup) ∧
      (∀ v, v ∈ (frontier.foldl
          (fun acc v => if containsKey acc.1 v then acc else (acc.1 ++ [(v, lv)], acc.2 ++ [v]))
          (seen0 ++ fd.map (fun v => (v, lv)), fd)).2 ↔
        v ∈ fd ∨ (v ∈ frontier ∧ containsKey seen0 v = false))
  | [], seen0, fd => by
    intro hnd hck
    refine ⟨rfl, hnd, ?_⟩
    intro v
    simp
  | w :: fr, seen0, fd => by
    intro hnd hck
    rw [List.foldl_cons]
    by_cases hw : containsKey (seen0 ++ fd.map (fun v => (v, lv))) w = true
    · rw [if_pos hw]
      obtain ⟨h1, h2, h3⟩ := bfsFold_spec lv fr seen0 fd hnd hck
      refine ⟨h1, h2, ?_⟩
      intro v
      rw [h3 v]
      constructor
      · rintro (hv | ⟨hv1, hv2⟩)
        · exact Or.inl hv
        · exact Or.inr ⟨List.mem_cons_of_mem w hv1, hv2⟩
      · rintro (hv | ⟨hv1, hv2⟩)
        · exact Or.inl hv
        · rcases List.mem_cons.1 hv1 with rfl | hv1'
          · rw [containsKey_append, hv2, containsKey_map_const, Bool.false_or] at hw
            exact Or.inl (by simpa using hw)
          · exact Or.inr ⟨hv1', hv2⟩
    · rw [if_neg hw]
      rw [containsKey_append, Bool.or_eq_true, not_or] at hw
      push_neg at hw
      have hw1 : containsKey seen0 w = false := by
        rcases h : containsKey seen0 w
        · rfl
        · exact absurd h hw.1
      have hw2 : w ∉ fd := by
        intro hc
        apply hw.2
        rw [containsKey_map_const]
        exact List.elem_eq_true_of_mem hc
      have hnd' : (fd ++ [w]).Nodup := by
        rw [List.nodup_append]
        refine ⟨hnd, List.nodup_singleton w, ?_⟩
        intro a ha hc
        have haw : a = w := by simpa using hc
        exact hw2 (haw ▸ ha)
      have hck' : ∀ v ∈ fd ++ [w], containsKey seen0 v = false := by
        intro v hv
        rcases List.mem_append.1 hv with hv | hv
        · exact hck v hv
        · have : v = w := by simpa using hv
          exact this ▸ hw1
      have harr : seen0 ++ fd.map (fun v => (v, lv)) ++ [(w, lv)] =
          seen0 ++ (fd ++ [w]).map (fun v => (v, lv)) := by
        rw [List.map_append, List.append_assoc]
        rfl
      rw [harr]
      obtain ⟨h1, h2, h3⟩ := bfsFold_spec lv fr seen0 (fd ++ [w]) hnd' hck'
      refine ⟨h1, h2, ?_⟩
      intro v
      rw [h3 v]
      constructor
      · rintro (hv | ⟨hv1, hv2⟩)
        · rcases List.mem_append.1 hv with hv | hv
          · exact Or.inl hv
          · have : v = w := by simpa using hv
            exact Or.inr ⟨this ▸ List.mem_cons_self w fr, this ▸ hw1⟩
        · exact Or.inr ⟨List.mem_cons_of_mem w hv1, hv2⟩
      · rintro (hv | ⟨hv1, hv2⟩)
        · exact Or.inl (List.mem_append.2 (Or.inl hv))
        · rcases List.mem_cons.1 hv1 with rfl | hv1'
          · exact Or.inl (List.mem_append.2 (Or.inr (by simp)))
          · exact Or.inr ⟨hv1', hv2⟩

theorem bfsStep_spec {α : Type} [DecidableEq α] (seen : List (α × Nat)) (lv : Nat)
    (frontier : List α) :
    (bfsStep seen lv frontier).1 =
        seen ++ (bfsStep seen lv frontier).2.map (fun v => (v, lv)) ∧
      (bfsStep seen lv frontier).2.Nodup ∧
      (∀ v, v ∈ (bfsStep seen lv frontier).2 ↔
        v ∈ frontier ∧ containsKey seen v = false) := by
  have h := bfsFold_spec lv frontier seen [] List.nodup_nil (by intro v hv; simp at hv)
  simp only [List.map_nil, List.append_nil] at h
  unfold bfsStep
  refine ⟨h.1, h.2.1, ?_⟩
  intro v
  rw [h.2.2 v]
  simp

theorem bfsLoop_nil {α : Type} [DecidableEq α] (g : Graph α) (seen : List (α × Nat)) (ℓ : Nat) :
    ∀ fuel, bfsLoop g fuel seen [] ℓ = seen
  | 0 => rfl
  | _ + 1 => rfl

theorem bfsLoop_succ {α : Type} [DecidableEq α] (g : Graph α) (fuel : Nat)
    (seen : List (α × Nat)) (frontier : List α) (ℓ : Nat) :
    bfsLoop g (fuel + 1) seen frontier ℓ =
      if frontier.isEmpty then seen
      else bfsLoop g fuel (bfsStep seen ℓ frontier).1
        (nbrsList g (bfsStep seen ℓ frontier).2) (ℓ + 1) := rfl

theorem bfsLoop_char {α : Type} [DecidableEq α] (g : Graph α) (s : α) (hwf : WF g)
    (hs : s ∈ g.nodes) :
    ∀ (fuel : Nat) (seen : List (α × Nat)) (frontier : List α) (ℓ : Nat),
      (∀ u d, (u, d) ∈ seen ↔ d < ℓ ∧ exactD g s d u) →
      (seen.map Prod.fst).Nodup →
      (∀ u, exactD g s ℓ u → u ∈ frontier) →
      (∀ u ∈ frontier, u ∈ ball g s ℓ) →
      g.nodes.length + 1 ≤ fuel + ℓ →
      ℓ ≤ seen.length →
      (∀ u d, ((u, d) ∈ bfsLoop g fuel seen frontier ℓ ↔ exactD g s d u)) ∧
        ((bfsLoop g fuel seen frontier ℓ).map Prod.fst).Nodup := by
  intro fuel
  induction fuel with
  | zero =>
    intro seen frontier ℓ hA hB _hC _hD hE hF
    exfalso
    have hkeys : (seen.map Prod.fst) ⊆ g.nodes := by
      intro u hu
      obtain ⟨d, hd⟩ := (mem_keys_iff seen u).1 hu
      have hex := ((hA u d).1 hd).2
      exact ball_subset_nodes hwf hs d u hex.1
    have hlen : (seen.map Prod.fst).length ≤ g.nodes.length :=
      (List.subperm_of_subset hB hkeys).length_le
    rw [List.length_map] at hlen
    omega
  | succ fuel ih =>
    intro seen frontier ℓ hA hB hC hD hE hF
    have final : (∀ u, ¬ exactD g s ℓ u) →
        (∀ u d, ((u, d) ∈ seen ↔ exactD g s d u)) := by
      intro hne u d
      rw [hA u d]
      constructor
      · rintro ⟨_, h⟩
        exact h
      · intro h
        refine ⟨?_, h⟩
        by_contra hge
        push_neg at hge
        exact no_exact_above g s ℓ hne d hge u h
    by_cases hfr : frontier.isEmpty
    · have hfr' : frontier = [] := List.isEmpty_iff.1 hfr
      rw [bfsLoop_succ, if_pos hfr]
      have hne : ∀ u, ¬ exactD g s ℓ u := by
        intro u hex
        have h := hC u hex
        rw [hfr'] at h
        simp at h
      exact ⟨final hne, hB⟩
    · have hresult : bfsLoop g (fuel + 1) seen frontier ℓ =
          bfsLoop g fuel (bfsStep seen ℓ frontier).1
            (nbrsList g (bfsStep seen ℓ frontier).2) (ℓ + 1) := by
        rw [bfsLoop_succ, if_neg (by simpa using hfr)]
      obtain ⟨hP1, hP3, hP2⟩ := bfsStep_spec seen ℓ frontier
      have hfound : ∀ v, v ∈ (bfsStep seen ℓ frontier).2 ↔ exactD g s ℓ v := by
        intro v
        rw [hP2 v]
        constructor
        · rintro ⟨hvf, hvck⟩
          obtain ⟨j, hj, hex⟩ := exact_of_mem_ball g s ℓ v (hD v hvf)
          rcases Nat.lt_or_ge j ℓ with hlt | hge
          · exfalso
            have hmem : (v, j) ∈ seen := (hA v j).2 ⟨hlt, hex⟩
            have hck : containsKey seen v = true :=
              (containsKey_iff_exists seen v).2 ⟨j, hmem⟩
            rw [hvck] at hck
            exact Bool.false_ne_true hck
          · have hje : j = ℓ := le_antisymm hj hge
            exact hje ▸ hex
        · intro hex
          refine ⟨hC v hex, ?_⟩
          rcases h : containsKey seen v
          · rfl
          · exfalso
            obtain ⟨b, hb⟩ := (containsKey_iff_exists seen v).1 h
            have hmem := (hA v b).1 hb
            exact hex.2 b hmem.1 hmem.2.1
      by_cases hfd : (bfsStep seen ℓ frontier).2 = []
      · have hne : ∀ u, ¬ exactD g s ℓ u := by
          intro u hex
          have h := (hfound u).2 hex
          rw [hfd] at h
          simp at h
        have hseen' : (bfsStep seen ℓ frontier).1 = seen := by
          rw [hP1, hfd]
          simp
        have hnbrs : nbrsList g (bfsStep seen ℓ frontier).2 = [] := by
          rw [hfd]
          rfl
        rw [hresult, hseen', hnbrs, bfsLoop_nil]
        exact ⟨final hne, hB⟩
      · have hA' : ∀ u d, (u, d) ∈ (bfsStep seen ℓ frontier).1 ↔
            d < ℓ + 1 ∧ exactD g s d u := by
          intro u d
          rw [hP1, List.mem_append]
          constructor
          · rintro (h | h)
            · obtain ⟨hd, hex⟩ := (hA u d).1 h
              exact ⟨Nat.lt_succ_of_lt hd, hex⟩
            · obtain ⟨v, hv, heq⟩ := List.mem_map.1 h
              injection heq with h1 h2
              subst h1
              subst h2
              exact ⟨Nat.lt_succ_self _, (hfound v).1 hv⟩
          · rintro ⟨hd, hex⟩
            rcases Nat.lt_or_ge d ℓ with hlt | hge
            · exact Or.inl ((hA u d).2 ⟨hlt, hex⟩)
            · have hde : d = ℓ := by omega
              subst hde
              exact Or.inr (List.mem_map.2 ⟨u, (hfound u).2 hex, rfl⟩)
        have hB' : ((bfsStep seen ℓ frontier).1.map Prod.fst).Nodup := by
          rw [hP1, List.map_append, List.map_map]
          have hfst : ((bfsStep seen ℓ frontier).2.map (Prod.fst ∘ fun v => (v, ℓ))) =
              (bfsStep seen ℓ frontier).2 := by
            have hcomp : (Prod.fst ∘ fun v : α => (v, ℓ)) = id := by
              funext v
              rfl
            rw [hcomp, List.map_id]
          rw [hfst, List.nodup_append]
          refine ⟨hB, hP3, ?_⟩
          intro a ha hc
          have h1 : containsKey seen a = true := by
            obtain ⟨b, hb⟩ := (mem_keys_iff seen a).1 ha
            exact (containsKey_iff_exists seen a).2 ⟨b, hb⟩
          have h2 := ((hP2 a).1 hc).2
          rw [h2] at h1
          exact Bool.false_ne_true h1
        have hC' : ∀ u, exactD g s (ℓ + 1) u →
            u ∈ nbrsList g (bfsStep seen ℓ frontier).2 := by
          intro u hex
          have hnb : u ∉ ball g s ℓ := hex.2 ℓ (Nat.lt_succ_self ℓ)
          rcases (mem_ball_succ g s u ℓ).1 hex.1 with h | ⟨w, hw, hnbr⟩
          · exact absurd h hnb
          · obtain ⟨j, hj, hexw⟩ := exact_of_mem_ball g s ℓ w hw
            have hjl : j = ℓ := by
              rcases Nat.lt_or_ge j ℓ with hlt | hge
              · exfalso
                have hu1 : u ∈ ball g s (j + 1) :=
                  (mem_ball_succ g s u j).2 (Or.inr ⟨w, hexw.1, hnbr⟩)
                exact hnb (ball_mono g s u (Nat.succ_le_of_lt hlt) hu1)
              · exact le_antisymm hj hge
            subst hjl
            exact (mem_nbrsList g _ u).2 ⟨w, (hfound w).2 hexw, hnbr⟩
        have hD' : ∀ u ∈ nbrsList g (bfsStep seen ℓ frontier).2, u ∈ ball g s (ℓ + 1) := by
          intro u hu
          obtain ⟨w, hw, hnbr⟩ := (mem_nbrsList g _ u).1 hu
          exact (mem_ball_succ g s u ℓ).2 (Or.inr ⟨w, ((hfound w).1 hw).1, hnbr⟩)
        have hE' : g.nodes.length + 1 ≤ fuel + (ℓ + 1) := by omega
        have hF' : ℓ + 1 ≤ (bfsStep seen ℓ frontier).1.length := by
          rw [hP1, List.length_append, List.length_map]
          have hpos : 1 ≤ (bfsStep seen ℓ frontier).2.length := by
            rcases hl : (bfsStep seen ℓ frontier).2 with _ | ⟨x, xs⟩
            · exact absurd hl hfd
            · simp
          omega
        rw [hresult]
        exact ih (bfsStep seen ℓ frontier).1 (nbrsList g (bfsStep seen ℓ frontier).2)
          (ℓ + 1) hA' hB' hC' hD' hE' hF'

theorem spLengths_char {α : Type} [DecidableEq α] (g : Graph α) (s : α) (hwf : WF g)
    (hs : s ∈ g.nodes) :
    (∀ u d, ((u, d) ∈ spLengths g s ↔ exactD g s d u)) ∧
      ((spLengths g s).map Prod.fst).Nodup := by
  unfold spLengths
  refine bfsLoop_char g s hwf hs (g.nodes.length + 2) [] [s] 0 ?_ ?_ ?_ ?_ ?_ ?_
  · intro u d
    simp
  · simp
  · intro u hex
    have := (mem_ball_zero g s u).1 hex.1
    simp [this]
  · intro u hu
    have : u = s := by simpa using hu
    simp [this, mem_ball_zero]
  · omega
  · simp

theorem ball_card_grow {α : Type} [DecidableEq α] (g : Graph α) (s : α) (hwf : WF g)
    (hs : s ∈ g.nodes)
    (hno : ∀ j ≤ g.nodes.length, ∃ v, v ∈ ball g s (j + 1) ∧ v ∉ ball g s j) :
    ∀ j, j ≤ g.nodes.length + 1 → j + 1 ≤ ((ball g s j).toFinset).card := by
  intro j
  induction j with
  | zero =>
    intro _
    have : s ∈ (ball g s 0).toFinset := by
      rw [List.mem_toFinset]
      exact (mem_ball_zero g s s).2 rfl
    exact Finset.card_pos.2 ⟨s, this⟩
  | succ j ihj =>
    intro hj
    obtain ⟨v, hv1, hv2⟩ := hno j (by omega)
    have hsub : insert v ((ball g s j).toFinset) ⊆ (ball g s (j + 1)).toFinset := by
      intro x hx
      rw [Finset.mem_insert] at hx
      rw [List.mem_toFinset]
      rcases hx with rfl | hx
      · exact hv1
      · rw [List.mem_toFinset] at hx
        exact ball_mono_succ g s x j hx
    have hcard : ((ball g s j).toFinset).card + 1 ≤ ((ball g s (j + 1)).toFinset).card := by
      have h1 : (insert v ((ball g s j).toFinset)).card =
          ((ball g s j).toFinset).card + 1 := by
        rw [Finset.card_insert_of_not_mem]
        intro hc
        exact hv2 (List.mem_toFinset.1 hc)
      calc ((ball g s j).toFinset).card + 1 = (insert v ((ball g s j).toFinset)).card := h1.symm
        _ ≤ ((ball g s (j + 1)).toFinset).card := Finset.card_le_card hsub
    have := ihj (by omega)
    omega

theorem ball_bound {α : Type} [DecidableEq α] {g : Graph α} {s : α} (hwf : WF g)
    (hs : s ∈ g.nodes) : ∀ (k : Nat) (u : α), u ∈ ball g s k → u ∈ ball g s g.nodes.length := by
  intro k u hu
  rcases Nat.le_total k g.nodes.length with hk | hk'
  · exact ball_mono g s u hk hu
  · by_cases hsat : ∃ j ≤ g.nodes.length, ∀ v, v ∈ ball g s (j + 1) → v ∈ ball g s j
    · obtain ⟨j, hj, hsub⟩ := hsat
      have h1 : u ∈ ball g s j := ball_saturates g s j hsub k (by omega) u hu
      exact ball_mono g s u hj h1
    · exfalso
      push_neg at hsat
      have hgrow := ball_card_grow g s hwf hs
        (fun j hj => by
          obtain ⟨v, hv1, hv2⟩ := hsat j hj
          exact ⟨v, hv1, hv2⟩)
        (g.nodes.length + 1) (le_refl _)
      have hle : ((ball g s (g.nodes.length + 1)).toFinset).card ≤ g.nodes.length := by
        calc ((ball g s (g.nodes.length + 1)).toFinset).card
            ≤ (g.nodes.toFinset).card := by
              apply Finset.card_le_card
              intro x hx
              rw [List.mem_toFinset] at hx ⊢
              exact ball_subset_nodes hwf hs _ x hx
          _ ≤ g.nodes.length := List.toFinset_card_le g.nodes
      omega

theorem reachableB_of_ball {α : Type} [DecidableEq α] {g : Graph α} {s u : α} (hwf : WF g)
    (hs : s ∈ g.nodes) {k : Nat} (h : u ∈ ball g s k) : reachableB g s u = true := by
  unfold reachableB
  simpa using ball_bound hwf hs k u h

theorem reachableB_self {α : Type} [DecidableEq α] (g : Graph α) {s : α} (hwf : WF g)
    (hs : s ∈ g.nodes) : reachableB g s s = true :=
  reachableB_of_ball hwf hs ((mem_ball_zero g s s).2 rfl)

theorem find_range_least {p : Nat → Bool} :
    ∀ (m d : Nat), ((List.range m).find? p = some d ↔
      d < m ∧ p d = true ∧ ∀ j < d, p j = false) := by
  intro m
  induction m with
  | zero =>
    intro d
    simp
  | succ m ih =>
    intro d
    rw [List.range_succ, List.find?_append]
    cases hfind : (List.range m).find? p with
    | some e =>
      obtain ⟨he1, he2, he3⟩ := (ih e).1 hfind
      rw [Option.or_some]
      constructor
      · intro h
        have hed : e = d := Option.some.inj h
        subst hed
        exact ⟨by omega, he2, he3⟩
      · rintro ⟨hd1, hd2, hd3⟩
        have hde : d = e := by
          rcases Nat.lt_trichotomy d e with h | h | h
          · exact absurd hd2 (by rw [he3 d h]; simp)
          · exact h
          · exact absurd he2 (by rw [hd3 e h]; simp)
        rw [hde]
    | none =>
      have hnone : ∀ j < m, p j = false := by
        intro j hj
        have h := List.find?_eq_none.1 hfind j (List.mem_range.2 hj)
        simpa using h
      rw [Option.none_or]
      constructor
      · intro h
        have h2 : p d = true := List.find?_some h
        have h3 : d ∈ [m] := List.mem_of_find?_eq_some h
        have hdm : d = m := by simpa using h3
        subst hdm
        exact ⟨by omega, h2, hnone⟩
      · rintro ⟨hd1, hd2, hd3⟩
        have hdm : d = m := by
          rcases Nat.lt_trichotomy d m with h | h | h
          · exact absurd hd2 (by rw [hnone d h]; simp)
          · exact h
          · omega
        subst hdm
        simp [hd2]

theorem distB_some_iff {α : Type} [DecidableEq α] {g : Graph α} {s : α} (hwf : WF g)
    (hs : s ∈ g.nodes) (u : α) (d : Nat) : distB g s u = some d ↔ exactD g s d u := by
  unfold distB
  rw [find_range_least]
  constructor
  · rintro ⟨_, hd2, hd3⟩
    refine ⟨by simpa using hd2, ?_⟩
    intro j hj hu
    have h := hd3 j hj
    simp [hu] at h
  · rintro ⟨h1, h2⟩
    refine ⟨?_, by simpa using h1, ?_⟩
    · by_contra hge
      push_neg at hge
      have hb : u ∈ ball g s g.nodes.length := ball_bound hwf hs d u h1
      exact h2 g.nodes.length (by omega) hb
    · intro j hj
      have h := h2 j hj
      simpa using h

theorem step_ball {α : Type} [DecidableEq α] (g : Graph α) {u w : α} (hw : w ∈ neighbors g u) :
    ∀ (k : Nat) (x : α), x ∈ ball g w k → x ∈ ball g u (k + 1)
  | 0, x, hx => by
    have hxw : x = w := (mem_ball_zero g w x).1 hx
    subst hxw
    exact (mem_ball_succ g u x 0).2 (Or.inr ⟨u, (mem_ball_zero g u u).2 rfl, hw⟩)
  | k + 1, x, hx => by
    rcases (mem_ball_succ g w x k).1 hx with h | ⟨y, hy, hxy⟩
    · exact ball_mono_succ g u x (k + 1) (step_ball g hw k x h)
    · exact (mem_ball_succ g u x (k + 1)).2 (Or.inr ⟨y, step_ball g hw k y hy, hxy⟩)

theorem ball_symm {α : Type} [DecidableEq α] (g : Graph α) {s u : α} :
    ∀ (k : Nat), u ∈ ball g s k → s ∈ ball g u k
  | 0, h => by
    have hus : u = s := (mem_ball_zero g s u).1 h
    subst hus
    exact (mem_ball_zero g _ _).2 rfl
  | k + 1, h => by
    rcases (mem_ball_succ g s u k).1 h with h1 | ⟨w, hw, hnb⟩
    · exact ball_mono_succ g u s k (ball_symm g k h1)
    · have h2 : s ∈ ball g w k := ball_symm g k hw
      have h3 : w ∈ neighbors g u := (neighbors_symm g w u).1 hnb
      exact step_ball g h3 k s h2

theorem ball_trans {α : Type} [DecidableEq α] (g : Graph α) {x y z : α} {j : Nat} :
    ∀ (k : Nat), y ∈ ball g x j → z ∈ ball g y k → z ∈ ball g x (j + k)
  | 0, hy, hz => by
    have hzy : z = y := (mem_ball_zero g y z).1 hz
    subst hzy
    simpa using hy
  | k + 1, hy, hz => by
    rcases (mem_ball_succ g y z k).1 hz with h1 | ⟨w, hw, hnb⟩
    · exact ball_mono g x z (by omega) (ball_trans g k hy h1)
    · have hwx : w ∈ ball g x (j + k) := ball_trans g k hy hw
      exact (mem_ball_succ g x z (j + k)).2 (Or.inr ⟨w, hwx, hnb⟩)

theorem reachableB_trans {α : Type} [DecidableEq α] {g : Graph α} {s u v : α} (hwf : WF g)
    (hu : u ∈ g.nodes)
    (h1 : reachableB g s u = true) (h2 : reachableB g s v = true) :
    reachableB g u v = true := by
  unfold reachableB at h1 h2
  have h1' : u ∈ ball g s g.nodes.length := by simpa using h1
  have h2' : v ∈ ball g s g.nodes.length := by simpa using h2
  have h3 : s ∈ ball g u g.nodes.length := ball_symm g _ h1'
  have h4 : v ∈ ball g u (g.nodes.length + g.nodes.length) := ball_trans g _ h3 h2'
  exact reachableB_of_ball hwf hu h4

theorem sp_perm {α : Type} [DecidableEq α] {g : Graph α} {s : α} (hwf : WF g)
    (hs : s ∈ g.nodes) :
    (spLengths g s).Perm ((g.nodes.filter (fun u => reachableB g s u)).map
      (fun u => (u, (distB g s u).getD 0))) := by
  have hchar := spLengths_char g s hwf hs
  have hnd1 : (spLengths g s).Nodup := hchar.2.of_map
  have hndR : (g.nodes.filter (fun u => reachableB g s u)).Nodup := hwf.1.filter _
  have hnd2 : ((g.nodes.filter (fun u => reachableB g s u)).map
      (fun u => (u, (distB g s u).getD 0))).Nodup := by
    refine hndR.map ?_
    intro a b hab
    exact congrArg Prod.fst hab
  rw [List.perm_ext_iff_of_nodup hnd1 hnd2]
  rintro ⟨u, d⟩
  rw [hchar.1 u d, List.mem_map]
  constructor
  · intro hex
    have hreach : reachableB g s u = true := reachableB_of_ball hwf hs hex.1
    have hnode : u ∈ g.nodes := ball_subset_nodes hwf hs d u hex.1
    refine ⟨u, List.mem_filter.2 ⟨hnode, by simpa using hreach⟩, ?_⟩
    have hd : distB g s u = some d := (distB_some_iff hwf hs u d).2 hex
    rw [hd]
    rfl
  · rintro ⟨v, hv, heq⟩
    have hvr : reachableB g s v = true := by simpa using (List.mem_filter.1 hv).2
    have hvb : v ∈ ball g s g.nodes.length := by
      unfold reachableB at hvr
      simpa using hvr
    obtain ⟨j, _, hex⟩ := exact_of_mem_ball g s _ v hvb
    have hdist : distB g s v = some j := (distB_some_iff hwf hs v j).2 hex
    injection heq with h1 h2
    subst h1
    rw [hdist] at h2
    simp at h2
    exact h2 ▸ hex

theorem sp_length_eq {α : Type} [DecidableEq α] {g : Graph α} {s : α} (hwf : WF g)
    (hs : s ∈ g.nodes) :
    (spLengths g s).length = (g.nodes.filter (fun u => reachableB g s u)).length := by
  have h := (sp_perm hwf hs).length_eq
  rwa [List.length_map] at h

theorem sp_sum_eq {α : Type} [DecidableEq α] {g : Graph α} {s : α} (hwf : WF g)
    (hs : s ∈ g.nodes) :
    ((spLengths g s).map (fun p => p.2)).sum =
      ((g.nodes.filter (fun u => reachableB g s u)).map
        (fun u => (distB g s u).getD 0)).sum := by
  have h := ((sp_perm hwf hs).map (fun p : α × Nat => p.2)).sum_eq
  rwa [List.map_map] at h

theorem nat_le_sum_of_mem : ∀ (l : List Nat) (x : Nat), x ∈ l → x ≤ l.sum
  | [], x, h => by simp at h
  | y :: ys, x, h => by
    rcases List.mem_cons.1 h with rfl | h'
    · simp
    · have := nat_le_sum_of_mem ys x h'
      simp
      omega

theorem exists_other {α : Type} (l : List α) (hnd : l.Nodup) (h2 : 2 ≤ l.length) (x : α) :
    ∃ u ∈ l, u ≠ x := by
  match l, hnd, h2 with
  | a :: b :: rest, hnd, _ =>
    by_cases hax : a = x
    · refine ⟨b, by simp, ?_⟩
      subst hax
      intro hc
      exact (List.nodup_cons.1 hnd).1 (hc ▸ List.mem_cons_self b rest)
    · exact ⟨a, by simp, hax⟩

theorem distB_self_zero {α : Type} [DecidableEq α] {g : Graph α} {v : α} (hwf : WF g)
    (hv : v ∈ g.nodes) : distB g v v = some 0 :=
  (distB_some_iff hwf hv v 0).2 (exactD_self g v)

theorem dist_pos_of_ne {α : Type} [DecidableEq α] {g : Graph α} {v u : α} (hwf : WF g)
    (hv : v ∈ g.nodes) (hne : u ≠ v) (hr : reachableB g v u = true) :
    1 ≤ (distB g v u).getD 0 := by
  have hub : u ∈ ball g v g.nodes.length := by
    unfold reachableB at hr
    simpa using hr
  obtain ⟨j, _, hex⟩ := exact_of_mem_ball g v _ u hub
  have hd : distB g v u = some j := (distB_some_iff hwf hv u j).2 hex
  rw [hd]
  rcases j with _ | j
  · exact absurd ((mem_ball_zero g v u).1 hex.1) hne
  · simp

theorem reach_sum_pos_iff {α : Type} [DecidableEq α] (g : Graph α) (v : α) (hwf : WF g)
    (hv : v ∈ g.nodes) :
    (0 < ((g.nodes.filter (fun u => reachableB g v u)).map
        (fun u => (distB g v u).getD 0)).sum ↔
      2 ≤ (g.nodes.filter (fun u => reachableB g v u)).length) := by
  have hvR : v ∈ g.nodes.filter (fun u => reachableB g v u) :=
    List.mem_filter.2 ⟨hv, by simpa using reachableB_self g hwf hv⟩
  have hndR : (g.nodes.filter (fun u => reachableB g v u)).Nodup := hwf.1.filter _
  constructor
  · intro hpos
    by_contra hlt
    push_neg at hlt
    have h1 : 1 ≤ (g.nodes.filter (fun u => reachableB g v u)).length :=
      List.length_pos.2 (List.ne_nil_of_mem hvR)
    have hlen : (g.nodes.filter (fun u => reachableB g v u)).length = 1 := by omega
    obtain ⟨a, ha⟩ := List.length_eq_one.1 hlen
    have hav : a = v := by
      have hmem := hvR
      rw [ha] at hmem
      have hva : v = a := by simpa using hmem
      exact hva.symm
    rw [ha, hav] at hpos
    simp [distB_self_zero hwf hv] at hpos
  · intro h2
    obtain ⟨u, hu, hune⟩ := exists_other _ hndR h2 v
    have hur : reachableB g v u = true := by simpa using (List.mem_filter.1 hu).2
    have hdist := dist_pos_of_ne hwf hv hune hur
    have hmem : (distB g v u).getD 0 ∈ (g.nodes.filter (fun u => reachableB g v u)).map
        (fun u => (distB g v u).getD 0) := List.mem_map_of_mem _ hu
    have := nat_le_sum_of_mem _ _ hmem
    omega

/-- Claim C2 is false on the code: networkx's default closeness applies the
Wasserman–Faust scaling `(r-1)/(n-1)` on top of the claimed `(r-1)/Σd`.  On
the two-component input "a b; c d" the claim's formula gives 1 for node "a"
while the code stores 1/3. -/
theorem c2_counterexample :
    ("a", (1 : ℚ) / 3) ∈ closeness_centrality (parse_adjacency_list "a b\nc d") ∧
      closenessSpecClaim (parse_adjacency_list "a b\nc d") "a" = 1 ∧
      (∀ p ∈ closeness_centrality (parse_adjacency_list "a b\nc d"),
        p.1 = "a" → p.2 ≠ closenessSpecClaim (parse_adjacency_list "a b\nc d") "a") := by
  decide

/-- Claim C2 (amended): for every well-formed graph and node `v`, the stored
closeness of `v` is `((r-1)/Σd)·((r-1)/(n-1))` — the claimed quotient times
networkx's default Wasserman–Faust reached-fraction factor — where `r`
counts the nodes reachable from `v` (including `v`), `Σd` sums their
breadth-first distances from `v`, and a node with `r = 1` (or a graph with
fewer than 2 nodes) gets closeness 0. -/
theorem c2_amended_closeness {α : Type} [DecidableEq α] (g : Graph α) (hwf : WF g) :
    ∀ v ∈ g.nodes, (v, closenessSpecWF g v) ∈ closeness_centrality g := by
  intro v hv
  unfold closeness_centrality
  refine List.mem_map.2 ⟨v, hv, ?_⟩
  have hr := sp_length_eq hwf hv
  have hsum := sp_sum_eq hwf hv
  have hcond := reach_sum_pos_iff g v hwf hv
  unfold closenessSpecWF
  by_cases h : 0 < ((((spLengths g v).map (fun p => p.2)).sum : Nat) : ℚ) ∧
      1 < g.nodes.length
  · rw [if_pos h]
    have hS2 : 2 ≤ (g.nodes.filter (fun u => reachableB g v u)).length := by
      refine hcond.1 ?_
      rw [← hsum]
      exact_mod_cast h.1
    rw [if_pos ⟨hS2, by omega⟩]
    rw [hr, hsum]
  · rw [if_neg h]
    rw [if_neg ?_]
    intro hc
    apply h
    constructor
    · rw [hsum]
      exact_mod_cast hcond.2 hc.1
    · omega

theorem c2_witness :
    ("a", closenessSpecWF (parse_adjacency_list "a b\nc d") "a") ∈
      closeness_centrality (parse_adjacency_list "a b\nc d") :=
  c2_amended_closeness (parse_adjacency_list "a b\nc d") (by decide) "a" (by decide)

theorem two_le_length_of_mem_ne {α : Type} {l : List α} {a b : α} (ha : a ∈ l)
    (hb : b ∈ l) (hne : a ≠ b) : 2 ≤ l.length := by
  match l, ha, hb with
  | [x], ha, hb =>
    have h1 : a = x := by simpa using ha
    have h2 : b = x := by simpa using hb
    exact absurd (h1.trans h2.symm) hne
  | x :: y :: rest, _, _ => simp

theorem isConnected_all_reachable {α : Type} [DecidableEq α] {g : Graph α} (hwf : WF g)
    (hcon : isConnected g = true) : ∀ x ∈ g.nodes, ∀ y ∈ g.nodes, reachableB g x y = true := by
  intro x hx y hy
  unfold isConnected at hcon
  rcases hns : g.nodes with _ | ⟨s, rest⟩
  · rw [hns] at hx
    simp at hx
  · rw [hns] at hcon
    simp only [decide_eq_true_eq] at hcon
    have hs : s ∈ g.nodes := by
      rw [hns]
      exact List.mem_cons_self s rest
    have hlen : (spLengths g s).length = g.nodes.length := by
      rw [hns]
      exact hcon
    have hchar := spLengths_char g s hwf hs
    have hkeys_sub : (spLengths g s).map Prod.fst ⊆ g.nodes := by
      intro w hw
      obtain ⟨d, hd⟩ := (mem_keys_iff _ w).1 hw
      exact ball_subset_nodes hwf hs d w ((hchar.1 w d).1 hd).1
    have hsub : ((spLengths g s).map Prod.fst).toFinset ⊆ g.nodes.toFinset := by
      intro w hw
      rw [List.mem_toFinset] at hw ⊢
      exact hkeys_sub hw
    have hc1 : ((spLengths g s).map Prod.fst).toFinset.card = (spLengths g s).length := by
      rw [List.toFinset_card_of_nodup hchar.2, List.length_map]
    have hc2 : g.nodes.toFinset.card = g.nodes.length := List.toFinset_card_of_nodup hwf.1
    have heq : ((spLengths g s).map Prod.fst).toFinset = g.nodes.toFinset := by
      refine Finset.eq_of_subset_of_card_le hsub ?_
      rw [hc1, hc2, hlen]
    have hcover : ∀ w ∈ g.nodes, reachableB g s w = true := by
      intro w hw
      have h1 : w ∈ g.nodes.toFinset := List.mem_toFinset.2 hw
      rw [← heq] at h1
      obtain ⟨d, hd⟩ := (mem_keys_iff _ w).1 (List.mem_toFinset.1 h1)
      exact reachableB_of_ball hwf hs ((hchar.1 w d).1 hd).1
    exact reachableB_trans hwf hx (hcover x hx) (hcover y hy)

/-- Claim C7: when some pair of nodes has no connecting path, the
average-path-length entry of the metrics bundle is the explicit
"Graph is not connected" sentinel stored by the `try`/`except`, no exception
escapes to the caller, and every other entry of the bundle is still
produced. -/
theorem c7_disconnected_sentinel {α : Type} [DecidableEq α] (g : Graph α) (fuel : Nat)
    (sup : List (List Nat)) (u v : α) (hwf : WF g) (hu : u ∈ g.nodes) (hv : v ∈ g.nodes)
    (hnr : reachableB g u v = false) :
    (calculate_metrics fuel g sup).map Metrics.avgPathLength
        = some PathLengthResult.notConnectedMsg ∧
      (calculate_metrics fuel g sup).map Metrics.densityVal = some (nxDensity g) ∧
      (calculate_metrics fuel g sup).map Metrics.degreeCentrality
        = some (degree_centrality g) ∧
      (calculate_metrics fuel g sup).map Metrics.closenessCentrality
        = some (closeness_centrality g) ∧
      (calculate_metrics fuel g sup).map Metrics.communities
        = some (best_partition fuel g sup) ∧
      (calculate_metrics fuel g sup).map Metrics.clusteringCoefficients
        = some (clustering g) ∧
      (calculate_metrics fuel g sup).map Metrics.betweennessK
        = some (betweennessSampleK g) := by
  have hne : u ≠ v := by
    intro hc
    subst hc
    rw [reachableB_self g hwf hu] at hnr
    exact Bool.false_ne_true hnr.symm
  have hn2 : 2 ≤ g.nodes.length := two_le_length_of_mem_ne hu hv hne
  have hconn : isConnected g = false := by
    rcases hcon : isConnected g
    · rfl
    · exfalso
      have := isConnected_all_reachable hwf hcon u hu v hv
      rw [hnr] at this
      exact Bool.false_ne_true this
  have hn0 : ¬ (g.nodes.length = 0) := by omega
  have hmetrics : calculate_metrics fuel g sup = some
      { degreeCentrality := degree_centrality g
        betweennessK := betweennessSampleK g
        closenessCentrality := closeness_centrality g
        communities := best_partition fuel g sup
        clusteringCoefficients := clustering g
        avgPathLength := avgPathLengthEntry g
        densityVal := nxDensity g } := by
    unfold calculate_metrics
    rw [if_neg hn0]
  have hapl : avgPathLengthEntry g = PathLengthResult.notConnectedMsg := by
    unfold avgPathLengthEntry
    have hnone : average_shortest_path_length g = none := by
      unfold average_shortest_path_length
      rw [if_neg hn0, if_neg (by omega : ¬ (g.nodes.length = 1)),
        if_neg (by rw [hconn]; exact Bool.false_ne_true)]
    rw [hnone]
  rw [hmetrics]
  refine ⟨?_, rfl, rfl, rfl, rfl, rfl, rfl⟩
  simp [hapl]

theorem c7_witness :
    (calculate_metrics 10 (parse_adjacency_list "a b\nc d") []).map Metrics.avgPathLength
      = some PathLengthResult.notConnectedMsg :=
  (c7_disconnected_sentinel (parse_adjacency_list "a b\nc d") 10 [] "a" "c"
    (by decide) (by decide) (by decide) (by decide)).1

/-! ## Totality and order-dependence of the Louvain embedding (C8, C4) -/

theorem setA_keys {κ β : Type} [DecidableEq κ] (l : List (κ × β)) (k : κ) (v : β)
    (h : containsKey l k = true) : (setA l k v).map Prod.fst = l.map Prod.fst := by
  unfold setA
  rw [if_pos h, List.map_map]
  refine List.map_congr_left ?_
  intro p _
  by_cases hp : p.1 = k
  · simp [Function.comp, hp]
  · simp [Function.comp, hp]

theorem mem_applyPerm {β : Type} (p : List Nat) (l : List β) :
    ∀ x ∈ applyPerm p l, x ∈ l := by
  intro x hx
  unfold applyPerm at hx
  split at hx
  · obtain ⟨i, _, hi⟩ := List.mem_filterMap.1 hx
    exact List.getElem?_mem hi
  · exact hx

theorem popShuffle_subset {β : Type} (sup : List (List Nat)) (l : List β) :
    ∀ x ∈ (popShuffle sup l).1, x ∈ l := by
  cases sup with
  | nil => exact fun x hx => hx
  | cons p rest => exact fun x hx => mem_applyPerm p l x hx

theorem containsKey_of_keys_mem {κ β : Type} [DecidableEq κ] (l : List (κ × β)) (k : κ)
    (h : k ∈ l.map Prod.fst) : containsKey l k = true := by
  obtain ⟨b, hb⟩ := (mem_keys_iff l k).1 h
  exact (containsKey_iff_exists l k).2 ⟨b, hb⟩

theorem louvainMoveNode_keys {α : Type} [DecidableEq α] (g : WGraph α) (node : α)
    (acc : (LStatus α × Bool) × List (List Nat))
    (h : node ∈ acc.1.1.node2com.map Prod.fst) :
    (louvainMoveNode g node acc).1.1.node2com.map Prod.fst =
      acc.1.1.node2com.map Prod.fst := by
  obtain ⟨b, hb⟩ : ∃ b : Int, (louvainMoveNode g node acc).1.1.node2com =
      setA (setA acc.1.1.node2com node (-1)) node b := ⟨_, rfl⟩
  have h1 := containsKey_of_keys_mem _ _ h
  have h2 : (setA acc.1.1.node2com node (-1)).map Prod.fst =
      acc.1.1.node2com.map Prod.fst := setA_keys _ _ _ h1
  have h3 : containsKey (setA acc.1.1.node2com node (-1)) node = true :=
    containsKey_of_keys_mem _ _ (h2 ▸ h)
  rw [hb, setA_keys _ _ _ h3, h2]

theorem louvainPass_keys {α : Type} [DecidableEq α] (g : WGraph α) (st : LStatus α)
    (sup : List (List Nat)) (h : st.node2com.map Prod.fst = g.nodes) :
    (louvainPass g st sup).1.1.node2com.map Prod.fst = g.nodes := by
  unfold louvainPass
  refine foldl_inv (fun acc : (LStatus α × Bool) × List (List Nat) => acc.1.1.node2com.map Prod.fst = g.nodes) _ _ _ h ?_
  intro acc node hmem hacc
  have hnode : node ∈ acc.1.1.node2com.map Prod.fst := by
    rw [hacc]
    exact popShuffle_subset sup g.nodes node hmem
  rw [louvainMoveNode_keys g node acc hnode, hacc]

theorem oneLevelGo_succ_eq {α : Type} [DecidableEq α] (g : WGraph α) (fuel : Nat)
    (st : LStatus α) (sup : List (List Nat)) (nm : ℚ) (md : Bool) :
    oneLevelGo g (fuel + 1) st sup nm md =
      if md = false then (st, sup)
      else
        if modularityQ (louvainPass g st sup).1.1 - nm < minIncrement then
          ((louvainPass g st sup).1.1, (louvainPass g st sup).2)
        else oneLevelGo g fuel (louvainPass g st sup).1.1 (louvainPass g st sup).2
          (modularityQ (louvainPass g st sup).1.1) (louvainPass g st sup).1.2 := rfl

theorem oneLevelGo_keys {α : Type} [DecidableEq α] (g : WGraph α) :
    ∀ (fuel : Nat) (st : LStatus α) (sup : List (List Nat)) (nm : ℚ) (md : Bool),
      st.node2com.map Prod.fst = g.nodes →
      (oneLevelGo g fuel st sup nm md).1.node2com.map Prod.fst = g.nodes
  | 0, st, sup, nm, md, h => h
  | fuel + 1, st, sup, nm, md, h => by
    rw [oneLevelGo_succ_eq]
    split
    · exact h
    · split
      · exact louvainPass_keys g st sup h
      · exact oneLevelGo_keys g fuel _ _ _ _ (louvainPass_keys g st sup h)

theorem renumberGo_keys {α : Type} [DecidableEq α] :
    ∀ (d : List (α × Int)) (nv : List (Int × Int)),
      (renumberGo d nv).map Prod.fst = d.map Prod.fst
  | [], _ => rfl
  | p :: rest, nv => by
    unfold renumberGo
    simp only [List.map_cons]
    rw [renumberGo_keys rest _]

theorem partitionAtLevelAll_keys {α : Type} [DecidableEq α] (p0 : List (α × Int))
    (levels : List (List (Int × Int))) :
    (partitionAtLevelAll p0 levels).map Prod.fst = p0.map Prod.fst := by
  unfold partitionAtLevelAll
  refine foldl_inv (fun part : List (α × Int) => part.map Prod.fst = p0.map Prod.fst) _ _ _ rfl ?_
  intro acc lvl _ hacc
  rw [List.map_map, ← hacc]
  refine List.map_congr_left ?_
  intro p _
  rfl

theorem statusInit_keys {α : Type} [DecidableEq α] (g : WGraph α) :
    (statusInit g).node2com.map Prod.fst = g.nodes := by
  unfold statusInit
  rw [List.map_map]
  have hcomp : (Prod.fst ∘ fun p : Nat × α => (p.2, (p.1 : Int))) = Prod.snd := by
    funext p
    rfl
  rw [hcomp, List.enum_map_snd]

theorem generateDendrogram_keys {α : Type} [DecidableEq α] (fuel : Nat) (g : WGraph α)
    (sup : List (List Nat)) :
    (generateDendrogram fuel g sup).1.map Prod.fst = g.nodes := by
  unfold generateDendrogram
  split
  · rw [List.map_map]
    have hcomp : (Prod.fst ∘ fun p : Nat × α => (p.2, (p.1 : Int))) = Prod.snd := by
      funext p
      rfl
    rw [hcomp, List.enum_map_snd]
  · unfold renumber
    rw [renumberGo_keys]
    unfold oneLevel
    exact oneLevelGo_keys g fuel _ _ _ _ (statusInit_keys g)

/-- Claim C8: the community partition is total — the key list of the
node-to-label dictionary returned by `best_partition` is exactly the node
list of the graph, for every pass budget and every drawn shuffle sequence;
when the node list is duplicate-free (as for every graph the program
builds) each node therefore carries exactly one integer label. -/
theorem c8_partition_total {α : Type} [DecidableEq α] (fuel : Nat) (g : Graph α)
    (sup : List (List Nat)) :
    (best_partition fuel g sup).map Prod.fst = g.nodes ∧
      (g.nodes.Nodup → ((best_partition fuel g sup).map Prod.fst).Nodup) := by
  have hkeys : (best_partition fuel g sup).map Prod.fst = g.nodes := by
    unfold best_partition
    rw [partitionAtLevelAll_keys]
    exact generateDendrogram_keys fuel (toWeighted g) sup
  exact ⟨hkeys, fun hnd => hkeys ▸ hnd⟩

theorem c8_witness :
    ((best_partition 10 (parse_adjacency_list "a b\nb c\nc a\nd a") []).map
      Prod.fst).Nodup :=
  (c8_partition_total 10 (parse_adjacency_list "a b\nb c\nc a\nd a") []).2 (by decide)

set_option maxRecDepth 1000000 in
/-- Claim C4 is false on the code: `community_louvain.best_partition`
shuffles its node and community scan orders with the unseeded global RNG, so
two runs on the same unchanged graph need not coincide.  On the 5-cycle, the
unshuffled scan order and the reversed scan order produce different
node-to-label partitions. -/
theorem c4_counterexample :
    best_partition 10 cycle5 [] ≠ best_partition 10 cycle5 [[4, 3, 2, 1, 0]] ∧
      best_partition 10 cycle5 [] = [(0, 0), (1, 0), (2, 1), (3, 1), (4, 1)] ∧
      best_partition 10 cycle5 [[4, 3, 2, 1, 0]] =
        [(0, 0), (1, 0), (2, 0), (3, 1), (4, 1)] := by
  decide

/-- Claim C4 (amended, following the spec's own conditioning on the scan
order): community detection is deterministic relative to the drawn scan
orders — two runs on the same unchanged graph that draw identical shuffle
sequences and use the same pass budget produce the identical
node-to-community-label partition; runs whose draws differ may not. -/
theorem c4_amended_determinism {α : Type} [DecidableEq α] (fuel : Nat) (g : Graph α)
    (sup1 sup2 : List (List Nat)) (h : sup1 = sup2) :
    best_partition fuel g sup1 = best_partition fuel g sup2 := by
  rw [h]

theorem c4_witness :
    best_partition 10 cycle5 [[4, 3, 2, 1, 0]] =
      best_partition 10 cycle5 [[4, 3, 2, 1, 0]] :=
  c4_amended_determinism 10 cycle5 [[4, 3, 2, 1, 0]] [[4, 3, 2, 1, 0]] rfl
